import Mathlib

/-!
Verification of the smalisca core against its natural-language specification.

The Python sources are shallowly embedded as executable Lean definitions:

* `SmaliP`    — modules/module_smali_parser.py (SmaliParser): the per-line
  regular-expression matchers, the extraction functions and the per-file
  state machine of `parse_file`.
* `Xref`      — analysis/analysis_sqlite.py (AnalyzerSQLite.xref_call),
  with the call-record store modelled as a list.
* `GraphM`    — modules/module_graph.py (ClassGraph / CallGraph).
* `Conc`      — controller/controller_parser.py (SmaliParserProcess /
  ConcurrentParser), with process interleaving made explicit by a schedule.
* `PyJson`    — core/smalisca_app.py (App.to_json / write_json / read_json),
  with an executable model of the json.dumps / json.loads pair.

Python regular expressions are embedded with their leftmost-search and
greedy-with-backtracking semantics, specialised to the concrete patterns
that appear in the source.  Input lines are taken without a trailing
newline; on such lines the dot of the patterns coincides with an
arbitrary-character match, which is what the definitions below use.
-/

namespace SmaliP

/-- Python `\s` (ASCII range, which is all the smali inputs contain). -/
def isPySpace (c : Char) : Bool :=
  (c = ' ') || (c = '\t') || (c = '\n') || (c = '\r') || (c = '\x0b') || (c = '\x0c')

/-- Python `\w` (ASCII range). -/
def isPyWord (c : Char) : Bool :=
  c.isAlpha || c.isDigit || (c = '_')

/-- The part of `l` strictly before the last occurrence of `t`,
or `none` when `t` does not occur.  This is the value captured by a
greedy `(.*)` that is followed by the literal `t` in a pattern. -/
def beforeLast (t : Char) (l : List Char) : Option (List Char) :=
  match l.reverse.dropWhile (fun x => x != t) with
  | [] => none
  | _ :: r => some r.reverse

/-- Leftmost search: try the matcher `f` at every start position of the
line, from the left, returning the first success.  This is the search
strategy of Python re.search. -/
def searchSuffixes (f : List Char → Option β) : List Char → Option β
  | [] => f []
  | c :: cs =>
    match f (c :: cs) with
    | some b => some b
    | none => searchSuffixes f cs

/-- Greedy split: try every decomposition `l = pre ++ suf`, longest `pre`
first, returning the first success of `f pre suf`.  This is the
backtracking semantics of a greedy `(.*)` group followed by the rest of
the pattern. -/
def bestSplit (l : List Char) (f : List Char → List Char → Option β) : Option β :=
  match l with
  | [] => f [] []
  | c :: cs =>
    match bestSplit cs (fun pre suf => f (c :: pre) suf) with
    | some b => some b
    | none => f [] (c :: cs)

/-- Python str.split with a one-character separator (keeps empty pieces). -/
def splitOnC (sep : Char) : List Char → List (List Char)
  | [] => [[]]
  | c :: cs =>
    match splitOnC sep cs with
    | [] => if c = sep then [[], []] else [[c]]
    | h :: t => if c = sep then [] :: h :: t else (c :: h) :: t

/-- Python sep.join. -/
def joinSep (sep : Char) : List (List Char) → List Char
  | [] => []
  | [x] => x
  | x :: y :: t => x ++ sep :: joinSep sep (y :: t)

/-- Tail matcher for the patterns `marker\s+(.*);`: after the literal
marker, a nonempty whitespace run, then a greedy group up to the last
semicolon of the line. -/
def markerSemiTail (marker : List Char) (suf : List Char) : Option (List Char) :=
  if marker.isPrefixOf suf then
    let rest := suf.drop marker.length
    let ws := rest.takeWhile isPySpace
    if ws.isEmpty then none
    else beforeLast ';' (rest.drop ws.length)
  else none

/-- Tail matcher for the patterns `marker\s+(.*)` and `marker\s+(.*)$`:
after the literal marker, a nonempty whitespace run, then the rest of
the line. -/
def markerRestTail (marker : List Char) (suf : List Char) : Option (List Char) :=
  if marker.isPrefixOf suf then
    let rest := suf.drop marker.length
    let ws := rest.takeWhile isPySpace
    if ws.isEmpty then none
    else some (rest.drop ws.length)
  else none

/-- re.search("\.class\s+(?P<class>.*);", line), group class. -/
def is_class (line : String) : Option String :=
  (searchSuffixes (markerSemiTail ".class".data) line.data).map String.mk

/-- re.search("\.super\s+(?P<parent>.*);", line), group parent. -/
def is_class_parent (line : String) : Option String :=
  (searchSuffixes (markerSemiTail ".super".data) line.data).map String.mk

/-- re.search("\.field\s+(?P<property>.*);", line), group property. -/
def is_class_property (line : String) : Option String :=
  (searchSuffixes (markerSemiTail ".field".data) line.data).map String.mk

/-- re.search("const-string\s+(?P<const>.*)", line), group const. -/
def is_const_string (line : String) : Option String :=
  (searchSuffixes (markerRestTail "const-string".data) line.data).map String.mk

/-- re.search("\.method\s+(?P<method>.*)$", line), group method. -/
def is_class_method (line : String) : Option String :=
  (searchSuffixes (markerRestTail ".method".data) line.data).map String.mk

/-- Tail matcher for `invoke-\w+(?P<invoke>.*)`: the literal, a nonempty
word-character run (greedy), then the rest of the line. -/
def invokeTail (suf : List Char) : Option (List Char) :=
  if "invoke-".data.isPrefixOf suf then
    let rest := suf.drop 7
    let w := rest.takeWhile isPyWord
    if w.isEmpty then none
    else some (rest.drop w.length)
  else none

/-- re.search("invoke-\w+(?P<invoke>.*)", line), group invoke. -/
def is_method_call (line : String) : Option String :=
  (searchSuffixes invokeTail line.data).map String.mk

/-- Record built by SmaliParser.extract_class_property. -/
structure PropertyD where
  name : String
  ptype : String
  info : String
deriving DecidableEq, Repr

/-- Record built by SmaliParser.extract_const_string. -/
structure ConstStringD where
  name : String
  value : String
deriving DecidableEq, Repr

/-- Record built by SmaliParser.extract_method_call, after parse_file has
stamped the source method and the call index. -/
structure CallD where
  to_class : String
  to_method : Option String
  local_args : Option String
  dst_args : Option String
  ret : Option String
  src : String
  index : Nat
deriving DecidableEq, Repr

/-- Record built by SmaliParser.extract_class_method. -/
structure MethodD where
  name : String
  args : Option String
  ret : Option String
  mtype : String
  calls : List CallD
deriving DecidableEq, Repr

/-- Record built by SmaliParser.extract_class; the parent key is absent
until a .super line sets it. -/
structure ClassD where
  name : String
  package : String
  depth : Nat
  ctype : String
  path : Option String
  parent : Option String
  properties : List PropertyD
  constStrings : List (Option ConstStringD)
  methods : List MethodD
deriving DecidableEq, Repr

/-- SmaliParser.extract_class: split the matched group on single spaces;
the last token is the class name, the preceding tokens are the type;
package and depth are derived from the name by splitting on slashes. -/
def extract_class (pth : Option String) (data : String) : ClassD :=
  let class_info := splitOnC ' ' data.data
  let nm := class_info.getLastD []
  { name := String.mk nm
    package := String.mk (joinSep '.' (splitOnC '/' nm).dropLast)
    depth := (splitOnC '/' nm).length
    ctype := String.mk (joinSep ' ' class_info.dropLast)
    path := pth
    parent := none
    properties := []
    constStrings := []
    methods := [] }

/-- SmaliParser.extract_class_property. -/
def extract_class_property (data : String) : PropertyD :=
  let prop_info := splitOnC ' ' data.data
  let pns := splitOnC ':' (prop_info.getLastD [])
  { name := String.mk (pns.headD [])
    ptype := match pns.get? 1 with
      | some t => String.mk t
      | none => ""
    info := String.mk (joinSep ' ' prop_info.dropLast) }

/-- SmaliParser.extract_const_string:
re.search over the pattern whose groups are var then value, with the var
group greedy up to a comma, a whitespace run and a double quote, and the
value group greedy up to the last double quote. -/
def extract_const_string (data : String) : Option ConstStringD :=
  bestSplit data.data (fun var suf =>
    match suf with
    | ',' :: rest =>
      let ws := rest.takeWhile isPySpace
      if ws.isEmpty then none
      else
        match rest.drop ws.length with
        | '"' :: rest2 =>
          (beforeLast '"' rest2).map
            (fun v => { name := String.mk var, value := String.mk v })
        | _ => none
    | _ => none)

/-- SmaliParser.extract_class_method: the last space-separated token is
matched against the pattern name(args)return with all three groups
greedy; when the pattern fails the whole token is the name and args and
return stay None. -/
def extract_class_method (data : String) : MethodD :=
  let method_info := splitOnC ' ' data.data
  let lastTok := method_info.getLastD []
  let mtype := String.mk (joinSep ' ' method_info.dropLast)
  let sig := bestSplit lastTok (fun nm suf =>
    match suf with
    | '(' :: rest =>
      bestSplit rest (fun ar suf2 =>
        match suf2 with
        | ')' :: rest2 => some (nm, ar, rest2)
        | _ => none)
    | _ => none)
  match sig with
  | some (nm, ar, rt) =>
    { name := String.mk nm, args := some (String.mk ar),
      ret := some (String.mk rt), mtype := mtype, calls := [] }
  | none =>
    { name := String.mk lastTok, args := none, ret := none,
      mtype := mtype, calls := [] }

/-- SmaliParser.extract_method_call: leftmost search for an opening brace,
then the groups local_args (braces included), dst_class, dst_method,
dst_args and return, each greedy.  When the pattern fails, the whole
data is the destination class and every other field stays None.  The
src and index fields are stamped later by parse_file. -/
def extract_method_call (data : String) : CallD :=
  let m := searchSuffixes (fun suf =>
    match suf with
    | '{' :: rest =>
      bestSplit rest (fun inner suf2 =>
        match suf2 with
        | '}' :: ',' :: rest2 =>
          let ws := rest2.takeWhile isPySpace
          if ws.isEmpty then none
          else
            bestSplit (rest2.drop ws.length) (fun dstC suf3 =>
              if ";->".data.isPrefixOf suf3 then
                bestSplit (suf3.drop 3) (fun dstM suf4 =>
                  match suf4 with
                  | '(' :: rest4 =>
                    bestSplit rest4 (fun dstA suf5 =>
                      match suf5 with
                      | ')' :: rest5 =>
                        some (String.mk ('{' :: (inner ++ ['}'])),
                              String.mk dstC, String.mk dstM,
                              String.mk dstA, String.mk rest5)
                      | _ => none)
                  | _ => none)
              else none)
        | _ => none)
    | _ => none) data.data
  match m with
  | some (la, dc, dm, da, rt) =>
    { to_class := dc, to_method := some dm, local_args := some la,
      dst_args := some da, ret := some rt, src := "", index := 0 }
  | none =>
    { to_class := data, to_method := none, local_args := none,
      dst_args := none, ret := none, src := "", index := 0 }

/-- Python substring containment, the `in` tests of the parse_file
dispatch. -/
def strContains (sub l : String) : Bool :=
  l.data.tails.any (fun t => sub.data.isPrefixOf t)

/-- Replace the element at index `i`; out-of-range indices leave the list
unchanged (parse_file only ever uses in-range indices, since the current
class and method are references to previously appended records). -/
def modifyIdx (l : List α) (i : Nat) (f : α → α) : List α :=
  match l, i with
  | [], _ => []
  | x :: xs, 0 => f x :: xs
  | x :: xs, n + 1 => x :: modifyIdx xs n f

/-- Placeholder class record for out-of-range list reads; parse_file
never actually reads out of range because the current class and method
indices always address previously appended records. -/
def dfltClass : ClassD :=
  { name := "", package := "", depth := 0, ctype := "", path := none,
    parent := none, properties := [], constStrings := [], methods := [] }

/-- Placeholder method record, as dfltClass. -/
def dfltMethod : MethodD :=
  { name := "", args := none, ret := none, mtype := "", calls := [] }

/-- The state threaded through parse_file.  In the Python source,
current_class and current_method are references aliasing records stored
inside self.classes; here they are indices into the accumulated list:
the current class is the class appended last, and the current method is
addressed by its class index and its position in that class. -/
structure ParseSt where
  classes : List ClassD
  currentClass : Option Nat
  currentMethod : Option (Nat × Nat)
  currentCallIndex : Nat
deriving DecidableEq, Repr

/-- The initial state of parse_file. -/
def initSt : ParseSt :=
  { classes := [], currentClass := none, currentMethod := none, currentCallIndex := 0 }

/-- Python truthiness of a matcher result: the is_* helpers return the
captured group string or None, and the `if match_x:` guards of
parse_file treat both None and the empty string as falsy. -/
def truthyGroup : Option String → Bool
  | none => false
  | some g => decide (g ≠ "")

/-- One iteration of the line loop of SmaliParser.parse_file.  The
branches are dispatched by substring containment in the fixed priority
order of the source.  Each branch guards its body with the Python
truthiness of the matcher result, so a None result and an empty captured
group are both skipped.  Accesses through a None current class or
current method raise a TypeError in Python; they are embedded as
errors. -/
def stepLine (pth : Option String) (st : ParseSt) (l : String) : Except String ParseSt :=
  if strContains ".class" l then
    match is_class l with
    | some g =>
      if g = "" then .ok st
      else
        .ok { st with
                classes := st.classes ++ [extract_class pth g],
                currentClass := some st.classes.length }
    | none => .ok st
  else if strContains ".super" l then
    match is_class_parent l with
    | some p =>
      if p = "" then .ok st
      else
        match st.currentClass with
        | some i =>
          .ok { st with classes := modifyIdx st.classes i (fun c => { c with parent := some p }) }
        | none => .error "TypeError"
    | none => .ok st
  else if strContains ".field" l then
    match is_class_property l with
    | some g =>
      if g = "" then .ok st
      else
        match st.currentClass with
        | some i =>
          .ok { st with
                  classes := modifyIdx st.classes i
                    (fun c => { c with properties := c.properties ++ [extract_class_property g] }) }
        | none => .error "TypeError"
    | none => .ok st
  else if strContains "const-string" l then
    match is_const_string l with
    | some g =>
      if g = "" then .ok st
      else
        match st.currentClass with
        | some i =>
          .ok { st with
                  classes := modifyIdx st.classes i
                    (fun c => { c with constStrings := c.constStrings ++ [extract_const_string g] }) }
        | none => .error "TypeError"
    | none => .ok st
  else if strContains ".method" l then
    match is_class_method l with
    | some g =>
      if g = "" then .ok st
      else
        match st.currentClass with
        | some i =>
          .ok { st with
                  classes := modifyIdx st.classes i
                    (fun c => { c with methods := c.methods ++ [extract_class_method g] }),
                  currentMethod := some (i, (st.classes.getD i dfltClass).methods.length),
                  currentCallIndex := 0 }
        | none => .error "TypeError"
    | none => .ok st
  else if strContains "invoke" l then
    match is_method_call l with
    | some g =>
      if g = "" then .ok st
      else
        match st.currentMethod with
        | some (ci, mi) =>
          let call0 := extract_method_call g
          let srcName := ((st.classes.getD ci dfltClass).methods.getD mi dfltMethod).name
          let call := { call0 with src := srcName, index := st.currentCallIndex }
          .ok { st with
                  classes := modifyIdx st.classes ci (fun c =>
                    { c with methods :=
                        modifyIdx c.methods mi (fun m => { m with calls := m.calls ++ [call] }) }),
                  currentCallIndex := st.currentCallIndex + 1 }
        | none => .error "TypeError"
    | none => .ok st
  else
    .ok st

/-- SmaliParser.parse_file on the list of lines of one file: fold the
line handler, propagating the first raised error as Python does. -/
def parse_file (pth : Option String) (lines : List String) : Except String ParseSt :=
  lines.foldlM (stepLine pth) initSt

/-- The line dispatches, in parse_file priority order, to a branch that
subscripts the current class, and its matcher result is truthy (the
captured group is present and non-empty).  These are exactly the lines
that raise when no class is open. -/
def needsClassCtx (l : String) : Bool :=
  if strContains ".class" l then false
  else if strContains ".super" l then truthyGroup (is_class_parent l)
  else if strContains ".field" l then truthyGroup (is_class_property l)
  else if strContains "const-string" l then truthyGroup (is_const_string l)
  else if strContains ".method" l then truthyGroup (is_class_method l)
  else false

/-- The line dispatches to the invocation branch and its matcher result
is truthy (present and non-empty).  These are exactly the lines that
raise when no method is open. -/
def needsMethodCtx (l : String) : Bool :=
  if strContains ".class" l then false
  else if strContains ".super" l then false
  else if strContains ".field" l then false
  else if strContains "const-string" l then false
  else if strContains ".method" l then false
  else if strContains "invoke" l then truthyGroup (is_method_call l)
  else false

end SmaliP

namespace Xref

/-- A persisted call record (modules/module_sql_models.py SmaliCall),
restricted to the columns the cross-reference engine reads. -/
structure SmaliCall where
  from_class : String
  from_method : String
  dst_class : String
  dst_method : String
deriving DecidableEq, Repr

/-- The two directions accepted by AnalyzerSQLite.xref_call. -/
inductive XDir where
  | to
  | fr
deriving DecidableEq, Repr

/-- The inner queries of xref_call.  For direction to, collect the source
classes of the current results and return every stored call whose
destination class is among them; for direction from, the symmetric
query.  The store is modelled as the list of all persisted calls, and
query.all returns matches in store order. -/
def xrefStep (db : List SmaliCall) (dir : XDir) (results : List SmaliCall) : List SmaliCall :=
  match dir with
  | .to => db.filter (fun c => (results.map (fun r => r.from_class)).contains c.dst_class)
  | .fr => db.filter (fun c => (results.map (fun r => r.dst_class)).contains c.from_class)

/-- Python truthiness of the tmp_res variable: None and the empty list
are falsy. -/
def truthy : Option (List SmaliCall) → Bool
  | none => false
  | some l => !l.isEmpty

/-- The body of the for loop of xref_call, run once: when tmp_res is
falsy the expansion restarts from the original results, otherwise it
expands tmp_res. -/
def xrefOnce (db : List SmaliCall) (dir : XDir) (results : List SmaliCall)
    (t : Option (List SmaliCall)) : Option (List SmaliCall) :=
  if truthy t then some (xrefStep db dir (t.getD [])) else some (xrefStep db dir results)

/-- The for loop of xref_call, run `n` times starting from state `t`. -/
def xrefLoop (db : List SmaliCall) (dir : XDir) (results : List SmaliCall) :
    Nat → Option (List SmaliCall) → Option (List SmaliCall)
  | 0, t => t
  | n + 1, t => xrefLoop db dir results n (xrefOnce db dir results t)

/-- AnalyzerSQLite.xref_call: iterate the expansion max_depth times from
tmp_res = None, then return tmp_res when it is truthy and the original
results otherwise. -/
def xref_call (db : List SmaliCall) (results : List SmaliCall) (dir : XDir)
    (max_depth : Nat) : List SmaliCall :=
  match xrefLoop db dir results max_depth none with
  | some l => if l.isEmpty then results else l
  | none => results

/-- The frontier of the straightforward iterated one-hop expansion, as
the specification describes it: iteration 0 is the first expansion away
from the seed, and iteration k + 1 expands the frontier of iteration
k.  This is the reference the claims compare xref_call against. -/
def pureFrontier (db : List SmaliCall) (dir : XDir) (seed : List SmaliCall) : Nat → List SmaliCall
  | 0 => xrefStep db dir seed
  | k + 1 => xrefStep db dir (pureFrontier db dir seed k)

/-- Cycle position after j loop iterations when the iterated frontier
first empties at index k: counts 0, 1, ..., k, 0, 1, ... — this equals
j modulo (k + 1) and tracks which frontier the loop holds, since after
the empty frontier the loop restarts the expansion from the seed. -/
def cycIdx (k : Nat) : Nat → Nat
  | 0 => 0
  | j + 1 => if cycIdx k j = k then 0 else cycIdx k j + 1

end Xref

namespace GraphM

/-- Ordered association list with the operations the graph code needs;
Python dicts preserve insertion order. -/
def lookupA (k : String) (l : List (String × α)) : Option α :=
  match l with
  | [] => none
  | (k2, v) :: t => if k2 = k then some v else lookupA k t

/-- Update the value stored under an existing key. -/
def setA (k : String) (f : α → α) : List (String × α) → List (String × α)
  | [] => []
  | (k2, v) :: t => if k2 = k then (k2, f v) :: t else (k2, v) :: setA k f t

/-- A persisted class record (modules/module_sql_models.py SmaliClass),
restricted to the columns ClassGraph.add_class reads for node and edge
identity.  The rendered label text of a node is presentation data and is
not modelled. -/
structure SmaliClassR where
  id : Nat
  class_name : String
  class_package : String
deriving DecidableEq, Repr

/-- The state of a ClassGraph: for every package, the list of node
identifiers added to its subgraph in order (the package anchor node
first); the edge identity list self.edges; and the edges actually
emitted to the graph via add_edges, in emission order. -/
structure ClassGraphSt where
  packages : List (String × List String)
  edges : List (String × String)
  emitted : List (String × String)
  subgraphs : List String
deriving DecidableEq, Repr

/-- ClassGraph.__init__. -/
def classGraphInit : ClassGraphSt :=
  { packages := [], edges := [], emitted := [], subgraphs := [] }

/-- ClassGraph.add_class. -/
def add_class (st : ClassGraphSt) (c : SmaliClassR) : ClassGraphSt :=
  let package_node := c.class_package
  let st1 :=
    match lookupA package_node st.packages with
    | none => { st with packages := st.packages ++ [(package_node, [package_node])] }
    | some _ => st
  let class_node := c.class_name ++ "_class_" ++ toString c.id
  let st2 := { st1 with packages := setA package_node (fun ns => ns ++ [class_node]) st1.packages }
  let st3 :=
    if (package_node, class_node) ∈ st2.edges then st2
    else { st2 with
             emitted := st2.emitted ++ [(package_node, class_node)],
             edges := st2.edges ++ [(package_node, class_node)] }
  if st3.subgraphs.contains package_node then st3
  else { st3 with subgraphs := st3.subgraphs ++ [package_node] }

/-- One class subgraph of a CallGraph: the node identifiers added to the
cluster in order (the invisible anchor node first) and the methods
bookkeeping list. -/
structure Cluster where
  nodes : List String
  methods : List String
deriving DecidableEq, Repr

/-- The state of a CallGraph: the classes dict mapping a class node name
to its cluster, the edge identity list self.edges (strings), and the
edges actually emitted to the top-level graph, in emission order. -/
structure CallGraphSt where
  classes : List (String × Cluster)
  edges : List String
  gEdges : List (String × String)
deriving DecidableEq, Repr

/-- CallGraph.__init__. -/
def callGraphInit : CallGraphSt :=
  { classes := [], edges := [], gEdges := [] }

/-- CallGraph.add_class_subgraph: create the cluster with its invisible
anchor node on first sight of the class node name. -/
def add_class_subgraph (st : CallGraphSt) (class_node : String) : CallGraphSt :=
  match lookupA class_node st.classes with
  | none =>
    { st with classes := st.classes ++ [(class_node, { nodes := [class_node], methods := [] })] }
  | some _ => st

/-- CallGraph.add_call on a persisted call record.  Note the source
appends the destination method node marker to the methods list of the
source class (self.classes[from_class_node]), while the node itself is
added to the destination subgraph; the embedding reproduces that
verbatim. -/
def add_call (st : CallGraphSt) (call : Xref.SmaliCall) : CallGraphSt :=
  let from_class_node := call.from_class
  let from_method_node := from_class_node ++ "_" ++ call.from_method
  let to_class_node := call.dst_class
  let to_method_node := to_class_node ++ "_" ++ call.dst_method
  let st1 := add_class_subgraph st from_class_node
  let st2 := add_class_subgraph st1 to_class_node
  let st3 :=
    if ((lookupA from_class_node st2.classes).getD ⟨[], []⟩).methods.contains from_method_node
    then st2
    else
      let upd := fun (cl : Cluster) =>
        { cl with nodes := cl.nodes ++ [from_method_node],
                  methods := cl.methods ++ [from_method_node] }
      { st2 with classes := setA from_class_node upd st2.classes }
  let st4 :=
    if ((lookupA to_class_node st3.classes).getD ⟨[], []⟩).methods.contains to_method_node
    then st3
    else
      let updNodes := fun (cl : Cluster) => { cl with nodes := cl.nodes ++ [to_method_node] }
      let updMeths := fun (cl : Cluster) => { cl with methods := cl.methods ++ [to_method_node] }
      let st3a := { st3 with classes := setA to_class_node updNodes st3.classes }
      { st3a with classes := setA from_class_node updMeths st3a.classes }
  let key := from_method_node ++ "-" ++ to_method_node
  if st4.edges.contains key then st4
  else
    { st4 with gEdges := st4.gEdges ++ [(from_method_node, to_method_node)],
               edges := st4.edges ++ [key] }

/-- The edge identity key used by CallGraph.add_call. -/
def keyOf (p : String × String) : String := p.1 ++ "-" ++ p.2

/-- Invariant of the call-graph state: the identity set lists exactly the
keys of the emitted edges, without repetition. -/
def CallInv (st : CallGraphSt) : Prop :=
  st.edges = st.gEdges.map keyOf ∧ st.edges.Nodup

/-- Invariant of the class-graph state: the identity set lists exactly
the emitted edges, without repetition. -/
def ClassInv (st : ClassGraphSt) : Prop :=
  st.edges = st.emitted ∧ st.edges.Nodup

/-- Fold add_call over a stream of call records. -/
def runCalls (calls : List Xref.SmaliCall) : CallGraphSt :=
  calls.foldl add_call callGraphInit

/-- Fold add_class over a stream of class records. -/
def runClasses (cs : List SmaliClassR) : ClassGraphSt :=
  cs.foldl add_class classGraphInit

end GraphM

namespace Conc

/-!
controller/controller_parser.py.  The directory tree is abstracted by
the list `dirs` of depth-cutoff directories computed by walk_location
(in walk order) together with a function `parseDir` giving, for each
directory, the class list a fresh SmaliParser accumulates over it; the
claims are about the partitioning and merging, not about the
filesystem.  Worker processes run concurrently and interact only
through the shared result queue; the order in which their puts reach
the queue is made explicit by a schedule.
-/

variable {α β : Type}

/-- ConcurrentParser.run partitioning: bucket `i` receives every
directory whose index modulo jobs equals `i`. -/
def sub_list (jobs : Nat) (dirs : List α) (i : Nat) : List α :=
  ((List.range dirs.length).filter (fun j => j % jobs = i)).filterMap (fun j => dirs.get? j)

/-- The worker processes created by ConcurrentParser.run, in creation
order: one per non-empty bucket, for i = 0 .. jobs - 1. -/
def processes (jobs : Nat) (dirs : List α) : List (List α) :=
  ((List.range jobs).map (sub_list jobs dirs)).filter (fun l => !l.isEmpty)

/-- SmaliParserProcess.run: the worker walks its directories in order
and, for each one, parses it with a fresh SmaliParser and puts that
directory's result list on the shared queue — one put per directory. -/
def workerPuts (parseDir : α → List β) (bucket : List α) : List (List β) :=
  bucket.map parseDir

/-- One step of the queue interleaving: deliver the next pending put of
process `s` (no-op when that process has no puts left). -/
def deliver (s : Nat) (st : List (List (List β)) × List (List β)) :
    List (List (List β)) × List (List β) :=
  match st.1.get? s with
  | some (b :: rest) => (st.1.set s rest, st.2 ++ [b])
  | _ => st

/-- The contents of the shared result queue after the scheduled
interleaving `sched` of the put operations of the workers: each entry of
the schedule names the process whose next put reaches the queue.  The
workers put their own batches in order; across workers the order is
whatever the scheduler makes of it. -/
def queueAfter (sched : List Nat) (puts : List (List (List β))) : List (List β) :=
  (sched.foldl (fun st s => deliver s st) (puts, [])).2

/-- A schedule is complete when every put of every worker has been
delivered; ConcurrentParser.run joins all workers before results are
read, so only complete schedules can occur. -/
def completeFor (sched : List Nat) (puts : List (List (List β))) : Prop :=
  (queueAfter sched puts).length = (puts.map List.length).sum

/-- ConcurrentParser.get_results: pop exactly one queue element per
process, then concatenate the popped batches in pop order. -/
def get_results (procs : List (List α)) (queue : List (List β)) : List β :=
  (queue.take procs.length).flatten

/-- The whole parallel scan under a given schedule: partition, run the
workers, interleave their puts per the schedule, merge. -/
def scanResult (jobs : Nat) (dirs : List α) (parseDir : α → List β) (sched : List Nat) : List β :=
  let procs := processes jobs dirs
  get_results procs (queueAfter sched (procs.map (workerPuts parseDir)))

/-- The single-worker reference extraction: one SmaliParser instance per
directory over the whole tree in walk order (the record multiset a
sequential scan of the same depth-cutoff directories accumulates). -/
def singleScan (dirs : List α) (parseDir : α → List β) : List β :=
  (dirs.map parseDir).flatten

end Conc

/-! ## Concrete records used by the counterexamples and failing inputs -/

namespace Demo

/-- Seed call record for the cross-reference scenarios. -/
def cS : Xref.SmaliCall := ⟨"A", "m", "Z", "z"⟩

/-- The only stored call: B.f calls A.m. -/
def c1 : Xref.SmaliCall := ⟨"B", "f", "A", "m"⟩

/-- A one-call store. -/
def db1 : List Xref.SmaliCall := [c1]

/-- A call record A.f -> B.g for the call-graph scenarios. -/
def cAB : Xref.SmaliCall := ⟨"A", "f", "B", "g"⟩

/-- Directory-to-records function for the scan scenarios: each directory
contains exactly one class record, named after the directory. -/
def demoParse : String → List String := fun d => [d]

end Demo

namespace PyJson

/-!
core/smalisca_app.py exports through the json module.  The value domain
is the JSON fragment the App object can hold (None, booleans, integers,
strings, lists, ordered string-keyed mappings); json.dump is modelled
with its smalisca configuration (indent = 4, hence separators
(",", ": "), and the default ensure_ascii = True), and json.loads as a
recursive-descent reader of that grammar.  Two deliberate modelling
restrictions: object fields are kept as the parsed field list in
document order (the Python decoder folds them into a dict where a
repeated key keeps the last value; output produced from dicts never
repeats a key, so the two agree on every dump), and string escapes that
denote lone surrogates are rejected rather than materialised, since
they cannot arise from encoding any string.
-/

/-- The JSON values exchanged by App.write_json / App.read_json. -/
inductive Json where
  | null
  | bool (b : Bool)
  | num (n : Int)
  | str (s : String)
  | arr (elems : List Json)
  | obj (fields : List (String × Json))

/-- Lowercase hexadecimal digit, as the %04x of the encoder. -/
def hexDigit (n : Nat) : Char :=
  if n < 10 then Char.ofNat (48 + n) else Char.ofNat (87 + n)

/-- Four-digit lowercase hexadecimal rendering of n < 0x10000. -/
def hex4 (n : Nat) : List Char :=
  [hexDigit (n / 4096 % 16), hexDigit (n / 256 % 16), hexDigit (n / 16 % 16), hexDigit (n % 16)]

/-- One character of py_encode_basestring_ascii: the two-character
escapes of the escape table, printable ASCII verbatim, and everything
else as a \u escape, split into a surrogate pair beyond the basic
plane. -/
def escChar (c : Char) : List Char :=
  if c = '"' then ['\\', '"']
  else if c = '\\' then ['\\', '\\']
  else if c = '\n' then ['\\', 'n']
  else if c = '\r' then ['\\', 'r']
  else if c = '\t' then ['\\', 't']
  else if c = '\x08' then ['\\', 'b']
  else if c = '\x0c' then ['\\', 'f']
  else if 0x20 ≤ c.toNat ∧ c.toNat ≤ 0x7e then [c]
  else if c.toNat < 0x10000 then '\\' :: 'u' :: hex4 c.toNat
  else
    ('\\' :: 'u' :: hex4 (0xd800 + (c.toNat - 0x10000) / 0x400)) ++
      ('\\' :: 'u' :: hex4 (0xdc00 + (c.toNat - 0x10000) % 0x400))

/-- py_encode_basestring_ascii over a whole string, quotes excluded. -/
def escape (s : List Char) : List Char :=
  (s.map escChar).flatten

/-- Decimal digits of a natural number, most significant first. -/
def natToDigits (n : Nat) : List Char :=
  if h : n < 10 then [Char.ofNat (48 + n)]
  else natToDigits (n / 10) ++ [Char.ofNat (48 + n % 10)]
termination_by n
decreasing_by
  exact Nat.div_lt_self (by omega) (by omega)

/-- Decimal rendering of a JSON integer. -/
def intRepr (n : Int) : List Char :=
  if n < 0 then '-' :: natToDigits (-n).toNat else natToDigits n.toNat

/-- The indentation run before an element at nesting level lvl under
indent = 4. -/
def nSpaces (lvl : Nat) : List Char :=
  List.replicate (4 * lvl) ' '

mutual

/-- json.dumps with indent 4: the text of one value placed at nesting
level lvl (the level only shows once a container is entered). -/
def dumpsVal (lvl : Nat) : Json → List Char
  | .null => 'n' :: 'u' :: 'l' :: 'l' :: []
  | .bool true => 't' :: 'r' :: 'u' :: 'e' :: []
  | .bool false => 'f' :: 'a' :: 'l' :: 's' :: 'e' :: []
  | .num n => intRepr n
  | .str s => '"' :: (escape s.data ++ ['"'])
  | .arr [] => '[' :: [']']
  | .arr (x :: xs) =>
    '[' :: '\n' :: (nSpaces (lvl + 1) ++
      (dumpsItems (lvl + 1) (x :: xs) ++ ('\n' :: (nSpaces lvl ++ [']']))))
  | .obj [] => '{' :: ['\x7d']
  | .obj (f :: fs) =>
    '{' :: '\n' :: (nSpaces (lvl + 1) ++
      (dumpsFields (lvl + 1) (f :: fs) ++ ('\n' :: (nSpaces lvl ++ ['\x7d']))))

/-- The element list of a nonempty array: elements separated by a comma,
a newline and the indentation of the current level. -/
def dumpsItems (lvl : Nat) : List Json → List Char
  | [] => []
  | [x] => dumpsVal lvl x
  | x :: y :: ys =>
    dumpsVal lvl x ++ (',' :: '\n' :: (nSpaces lvl ++ dumpsItems lvl (y :: ys)))

/-- The field list of a nonempty object: quoted escaped key, colon,
space, value, with the same separators as array elements. -/
def dumpsFields (lvl : Nat) : List (String × Json) → List Char
  | [] => []
  | [(k, v)] => '"' :: (escape k.data ++ ('"' :: ':' :: ' ' :: dumpsVal lvl v))
  | (k, v) :: g :: gs =>
    ('"' :: (escape k.data ++ ('"' :: ':' :: ' ' :: dumpsVal lvl v))) ++
      (',' :: '\n' :: (nSpaces lvl ++ dumpsFields lvl (g :: gs)))

end

mutual

/-- Fuel bound sufficient to parse the rendering of a value: one unit
per value plus one per container element. -/
def szVal : Json → Nat
  | .null => 1
  | .bool _ => 1
  | .num _ => 1
  | .str _ => 1
  | .arr xs => 1 + szItems xs
  | .obj fs => 1 + szFields fs

/-- Fuel bound for the elements of an array. -/
def szItems : List Json → Nat
  | [] => 1
  | x :: xs => 1 + szVal x + szItems xs

/-- Fuel bound for the fields of an object. -/
def szFields : List (String × Json) → Nat
  | [] => 1
  | f :: fs => 1 + szVal f.2 + szFields fs

end

/-- JSON insignificant whitespace. -/
def isJsonWs (c : Char) : Bool :=
  (c = ' ') || (c = '\n') || (c = '\t') || (c = '\r')

/-- Skip insignificant whitespace. -/
def skipWs (l : List Char) : List Char :=
  l.dropWhile isJsonWs

/-- Value of a hexadecimal digit character. -/
def hexVal (c : Char) : Option Nat :=
  if '0' ≤ c ∧ c ≤ '9' then some (c.toNat - 48)
  else if 'a' ≤ c ∧ c ≤ 'f' then some (c.toNat - 87)
  else if 'A' ≤ c ∧ c ≤ 'F' then some (c.toNat - 55)
  else none

/-- The two-character escape table of the decoder. -/
def escTable (e : Char) : Option Char :=
  if e = 'n' then some '\n'
  else if e = 'r' then some '\r'
  else if e = 't' then some '\t'
  else if e = 'b' then some '\x08'
  else if e = 'f' then some '\x0c'
  else if e = '/' then some '/'
  else if e = '"' then some '"'
  else if e = '\\' then some '\\'
  else none

/-- Four hexadecimal digits and their value. -/
def decodeHex4 : List Char → Option (Nat × List Char)
  | h1 :: h2 :: h3 :: h4 :: rest =>
    match hexVal h1, hexVal h2, hexVal h3, hexVal h4 with
    | some a, some b, some c, some d => some ((((a * 16 + b) * 16 + c) * 16 + d : Nat), rest)
    | _, _, _, _ => none
  | _ => none

/-- Decode one \u escape (the input starts after the backslash-u).  A
code in the high-surrogate range must be followed by a second escape in
the low-surrogate range and the pair denotes one astral character;
other surrogate uses are rejected (see the namespace note). -/
def decodeUEscape (l : List Char) : Option (Char × List Char) :=
  match decodeHex4 l with
  | none => none
  | some (n, rest) =>
    if h : n < 0xd800 ∨ (0xe000 ≤ n ∧ n < 0x110000) then
      some (Char.ofNatAux n (by omega), rest)
    else if 0xd800 ≤ n ∧ n < 0xdc00 then
      match rest with
      | '\\' :: 'u' :: rest2 =>
        match decodeHex4 rest2 with
        | some (m, rest3) =>
          if 0xdc00 ≤ m ∧ m < 0xe000 then
            if h2 : (0x10000 + (n - 0xd800) * 0x400 + (m - 0xdc00) : Nat) < 0xd800 ∨
                (0xe000 ≤ (0x10000 + (n - 0xd800) * 0x400 + (m - 0xdc00) : Nat) ∧
                  (0x10000 + (n - 0xd800) * 0x400 + (m - 0xdc00) : Nat) < 0x110000) then
              some (Char.ofNatAux (0x10000 + (n - 0xd800) * 0x400 + (m - 0xdc00)) (by omega), rest3)
            else none
          else none
        | none => none
      | _ => none
    else none

/-- Decode the body of a string literal up to its closing quote,
returning the decoded characters and the input after the quote.  The
fuel argument only bounds the recursion depth of this model of the
decoder loop; callers pass one more than the input length, which one
unit per decoded character never exhausts. -/
def parseStringBody : Nat → List Char → Option (List Char × List Char)
  | 0, _ => none
  | _, [] => none
  | fuel + 1, c :: rest =>
    if c = '"' then some ([], rest)
    else if c = '\\' then
      match rest with
      | 'u' :: rest2 =>
        match decodeUEscape rest2 with
        | some (ch, rest3) => (parseStringBody fuel rest3).map (fun p => (ch :: p.1, p.2))
        | none => none
      | e :: rest2 =>
        match escTable e with
        | some ch => (parseStringBody fuel rest2).map (fun p => (ch :: p.1, p.2))
        | none => none
      | [] => none
    else if c.toNat < 0x20 then none
    else (parseStringBody fuel rest).map (fun p => (c :: p.1, p.2))

/-- Numeric value of a digit run, most significant first. -/
def digitsVal (ds : List Char) : Nat :=
  ds.foldl (fun acc d => acc * 10 + (d.toNat - 48)) 0

/-- Read a nonempty digit run as a natural number. -/
def parseNat (l : List Char) : Option (Nat × List Char) :=
  let ds := l.takeWhile (fun c => c.isDigit)
  if ds.isEmpty then none else some (digitsVal ds, l.drop ds.length)

mutual

/-- json.loads, one value: skip whitespace, dispatch on the first
character, and hand containers to the element readers.  The fuel
argument only bounds the recursion; szVal of the value is enough. -/
def parseVal : Nat → List Char → Option (Json × List Char)
  | 0, _ => none
  | fuel + 1, l =>
    match skipWs l with
    | [] => none
    | c :: rest =>
      if c = '"' then (parseStringBody (rest.length + 1) rest).map (fun p => (.str (String.mk p.1), p.2))
      else if c = '-' then (parseNat rest).map (fun p => (.num (-(p.1 : Int)), p.2))
      else if c.isDigit then (parseNat (c :: rest)).map (fun p => (.num (p.1 : Int), p.2))
      else if c = '[' then
        match skipWs rest with
        | ']' :: rest2 => some (.arr [], rest2)
        | _ => (parseItems fuel rest).map (fun p => (.arr p.1, p.2))
      else if c = '{' then
        match skipWs rest with
        | '\x7d' :: rest2 => some (.obj [], rest2)
        | _ => (parseFields fuel rest).map (fun p => (.obj p.1, p.2))
      else
        match c :: rest with
        | 'n' :: 'u' :: 'l' :: 'l' :: rest2 => some (.null, rest2)
        | 't' :: 'r' :: 'u' :: 'e' :: rest2 => some (.bool true, rest2)
        | 'f' :: 'a' :: 'l' :: 's' :: 'e' :: rest2 => some (.bool false, rest2)
        | _ => none

/-- The comma-separated elements of a nonempty array, up to and
including the closing bracket. -/
def parseItems : Nat → List Char → Option (List Json × List Char)
  | 0, _ => none
  | fuel + 1, l =>
    match parseVal fuel l with
    | some (x, rest) =>
      match skipWs rest with
      | ',' :: rest2 => (parseItems fuel rest2).map (fun p => (x :: p.1, p.2))
      | ']' :: rest2 => some ([x], rest2)
      | _ => none
    | none => none

/-- The comma-separated fields of a nonempty object, up to and
including the closing brace. -/
def parseFields : Nat → List Char → Option (List (String × Json) × List Char)
  | 0, _ => none
  | fuel + 1, l =>
    match skipWs l with
    | '"' :: rest =>
      match parseStringBody (rest.length + 1) rest with
      | some (k, rest2) =>
        match skipWs rest2 with
        | ':' :: rest3 =>
          match parseVal fuel rest3 with
          | some (v, rest4) =>
            match skipWs rest4 with
            | ',' :: rest5 => (parseFields fuel rest5).map (fun p => ((String.mk k, v) :: p.1, p.2))
            | '\x7d' :: rest5 => some ([(String.mk k, v)], rest5)
            | _ => none
          | none => none
        | _ => none
      | none => none
    | _ => none

end

/-- json.loads: parse one value and insist on nothing but whitespace
after it. -/
def loads (s : String) : Option Json :=
  match parseVal (s.data.length + 1) s.data with
  | some (j, rest) => if skipWs rest = [] then some j else none
  | none => none

/-- The in-memory App state of core/smalisca_app.py that the JSON export
reads and the import writes: the fields to_json serialises, with the
classes mapping carrying arbitrary JSON-serialisable class data. -/
structure App where
  parser : Option Json
  location : Option Json
  classes : List (String × Json)

/-- None serialises as JSON null; the parser and location fields hold
None until add_parser / add_location store a value. -/
def optVal : Option Json → Json
  | none => .null
  | some j => j

/-- App.to_json: dump the three-field dict as indented JSON text. -/
def to_json (a : App) : String :=
  String.mk (dumpsVal 0 (.obj
    [("parser", optVal a.parser), ("location", optVal a.location), ("classes", .obj a.classes)]))

/-- App.write_json: the file receives json.dump of the to_json string,
i.e. the doubly encoded text. -/
def write_json (a : App) : String :=
  String.mk (dumpsVal 0 (.str (to_json a)))

/-- First field stored under a key (the dump of a dict never repeats a
key, so first and last coincide on every input read_json can meet). -/
def lookupField (k : String) : List (String × Json) → Option Json
  | [] => none
  | (k2, v) :: fs => if k2 = k then some v else lookupField k fs

/-- App.read_json, restricted to its effect on the classes attribute:
json.load reads the JSON text in the file (it must be a string literal,
or the outer json.loads call raises a TypeError), the inner json.loads
decodes that string, and the classes attribute is replaced by
data["classes"] when the key is present (none means the attribute keeps
its previous value).  Parse failures raise ValueError. -/
def read_json_classes (file : String) : Except String (Option Json) :=
  match loads file with
  | none => .error "ValueError"
  | some (.str s) =>
    match loads s with
    | none => .error "ValueError"
    | some (.obj fields) => .ok (lookupField "classes" fields)
    | some _ => .ok none
  | some _ => .error "TypeError"

end PyJson

/-! ## Helper lemmas -/

namespace GraphM

lemma acs_edges (st : CallGraphSt) (cn : String) : (add_class_subgraph st cn).edges = st.edges := by
  unfold add_class_subgraph
  cases lookupA cn st.classes <;> rfl

lemma acs_gEdges (st : CallGraphSt) (cn : String) : (add_class_subgraph st cn).gEdges = st.gEdges := by
  unfold add_class_subgraph
  cases lookupA cn st.classes <;> rfl

lemma add_call_edges_spec (st : CallGraphSt) (c : Xref.SmaliCall) :
    ((add_call st c).edges = st.edges ∧ (add_call st c).gEdges = st.gEdges) ∨
    (∃ p, (add_call st c).edges = st.edges ++ [keyOf p] ∧
      (add_call st c).gEdges = st.gEdges ++ [p] ∧ keyOf p ∉ st.edges) := by
  unfold add_call
  dsimp only
  split <;> split <;> split <;>
    simp_all [acs_edges, acs_gEdges, keyOf]
  all_goals exact ⟨_, _, rfl, ⟨rfl, rfl⟩, by assumption⟩

lemma add_class_edges_spec (st : ClassGraphSt) (c : SmaliClassR) :
    ((add_class st c).edges = st.edges ∧ (add_class st c).emitted = st.emitted) ∨
    (∃ p, (add_class st c).edges = st.edges ++ [p] ∧
      (add_class st c).emitted = st.emitted ++ [p] ∧ p ∉ st.edges) := by
  unfold add_class
  dsimp only
  split <;> split <;> split <;> simp_all

lemma callInv_add (st : CallGraphSt) (c : Xref.SmaliCall) (h : CallInv st) :
    CallInv (add_call st c) := by
  obtain ⟨h1, h2⟩ := h
  rcases add_call_edges_spec st c with ⟨e1, e2⟩ | ⟨p, e1, e2, hnm⟩
  · exact ⟨by rw [e1, e2, h1], by rw [e1]; exact h2⟩
  · constructor
    · rw [e1, e2, h1, List.map_append]
      rfl
    · rw [e1]
      simp [List.nodup_append, h2, hnm]

lemma classInv_add (st : ClassGraphSt) (c : SmaliClassR) (h : ClassInv st) :
    ClassInv (add_class st c) := by
  obtain ⟨h1, h2⟩ := h
  rcases add_class_edges_spec st c with ⟨e1, e2⟩ | ⟨p, e1, e2, hnm⟩
  · exact ⟨by rw [e1, e2, h1], by rw [e1]; exact h2⟩
  · exact ⟨by rw [e1, e2, h1], by rw [e1]; simp [List.nodup_append, h2, hnm]⟩

lemma callInv_fold (calls : List Xref.SmaliCall) :
    ∀ st, CallInv st → CallInv (calls.foldl add_call st) := by
  induction calls with
  | nil => intro st h; exact h
  | cons c t ih => intro st h; exact ih _ (callInv_add st c h)

lemma classInv_fold (cs : List SmaliClassR) :
    ∀ st, ClassInv st → ClassInv (cs.foldl add_class st) := by
  induction cs with
  | nil => intro st h; exact h
  | cons c t ih => intro st h; exact ih _ (classInv_add st c h)

end GraphM

/-! ## Claim theorems -/

/-- C9: for every store, seed set and direction, xref_call with
max_depth = 0 performs no expansion and returns the seed unchanged. -/
theorem xref_call_depth_zero (db results : List Xref.SmaliCall) (dir : Xref.XDir) :
    Xref.xref_call db results dir 0 = results := rfl

/-- C2 counterexample: over the store db1 = [B.f -> A.m] with seed
[A.m -> Z.z], the iterated expansion has non-empty frontier [c1] at
iteration 0 and empty frontier at iteration k = 1; with maxDepth = 2
(so 0 < k < maxDepth) xref_call returns the seed, not the frontier of
iteration k - 1. -/
theorem xref_call_empty_frontier_counterexample :
    Xref.pureFrontier Demo.db1 .to [Demo.cS] 0 = [Demo.c1] ∧
    Xref.pureFrontier Demo.db1 .to [Demo.cS] 1 = [] ∧
    Xref.xref_call Demo.db1 [Demo.cS] .to 2 = [Demo.cS] ∧
    [Demo.cS] ≠ [Demo.c1] := by
  refine ⟨rfl, rfl, rfl, ?_⟩
  decide

/-- C4 counterexample: the two-line input of the claim yields exactly one
class record, but its name keeps no trailing semicolon, its package
keeps the leading L of the type descriptor, and its parent keeps no
trailing semicolon: the record differs from the one the claim
describes in all three of those fields. -/
theorem extract_class_scenario_counterexample :
    SmaliP.parse_file none [".class public Lcom/a/B;", ".super Ljava/lang/Object;"] =
      .ok { classes := [{ name := "Lcom/a/B", package := "Lcom.a", depth := 3,
                          ctype := "public", path := none,
                          parent := some "Ljava/lang/Object",
                          properties := [], constStrings := [], methods := [] }],
            currentClass := some 0, currentMethod := none, currentCallIndex := 0 } ∧
    ("Lcom/a/B" : String) ≠ "Lcom/a/B;" ∧
    ("Lcom.a" : String) ≠ "com.a" ∧
    some ("Ljava/lang/Object" : String) ≠ some "Ljava/lang/Object;" := by
  refine ⟨rfl, by decide, by decide, by decide⟩

/-- C4 amended: the two-line input produces exactly one class record,
with name Lcom/a/B (the final semicolon is consumed by the pattern),
package Lcom.a (every slash segment but the last, so the L prefix
remains), depth 3, type public, and parent Ljava/lang/Object (again
without the semicolon). -/
theorem extract_class_scenario :
    SmaliP.parse_file none [".class public Lcom/a/B;", ".super Ljava/lang/Object;"] =
      .ok { classes := [{ name := "Lcom/a/B", package := "Lcom.a", depth := 3,
                          ctype := "public", path := none,
                          parent := some "Ljava/lang/Object",
                          properties := [], constStrings := [], methods := [] }],
            currentClass := some 0, currentMethod := none, currentCallIndex := 0 } := rfl

/-- C5 counterexample: for the const-string remainder with two quoted
groups, the extracted value is not the first quoted group: both groups
are greedy, so the value runs to the last double quote of the line. -/
theorem extract_const_string_counterexample :
    SmaliP.extract_const_string "v0, \"a\" \"b\"" =
      some { name := "v0", value := "a\" \"b" } ∧
    ("a\" \"b" : String) ≠ "a" := by
  refine ⟨rfl, by decide⟩

/-- C6 failing input: adding the same call A.f -> B.g twice emits the
method node B_g into the cluster of class B twice — the source appends
the dedup marker for the destination method to the methods list of the
source class, so the guard for the destination never fires. -/
theorem add_call_duplicate_node :
    GraphM.lookupA "B" (GraphM.runCalls [Demo.cAB, Demo.cAB]).classes =
      some { nodes := ["B", "B_g", "B_g"], methods := [] } ∧
    ¬ (["B", "B_g", "B_g"].count "B_g" ≤ 1) := by
  refine ⟨rfl, by decide⟩

/-- C1 failing input: two depth-cutoff directories and one worker.  The
worker puts one result batch per directory on the queue, but the
coordinator pops only one batch per process, so the second directory's
class records never reach the merged result, while the single-worker
reference extraction over the same tree contains both. -/
theorem concurrent_scan_loses_records :
    Conc.scanResult 1 ["d1", "d2"] Demo.demoParse [0, 0] = ["d1"] ∧
    Conc.singleScan ["d1", "d2"] Demo.demoParse = ["d1", "d2"] ∧
    Conc.completeFor [0, 0]
      ((Conc.processes 1 ["d1", "d2"]).map (Conc.workerPuts Demo.demoParse)) ∧
    ¬ (Conc.scanResult 1 ["d1", "d2"] Demo.demoParse [0, 0]).Perm
        (Conc.singleScan ["d1", "d2"] Demo.demoParse) := by
  refine ⟨rfl, rfl, rfl, by decide⟩

/-- C8 counterexample: with two directories and two workers, the two
complete schedules that deliver the two puts in opposite orders yield
merged results in different orders: the coordinator concatenates queue
batches in arrival order, not in bucket-creation order, so the merge is
not schedule-independent. -/
theorem scan_order_depends_on_schedule :
    Conc.scanResult 2 ["d1", "d2"] Demo.demoParse [0, 1] = ["d1", "d2"] ∧
    Conc.scanResult 2 ["d1", "d2"] Demo.demoParse [1, 0] = ["d2", "d1"] ∧
    Conc.completeFor [0, 1]
      ((Conc.processes 2 ["d1", "d2"]).map (Conc.workerPuts Demo.demoParse)) ∧
    Conc.completeFor [1, 0]
      ((Conc.processes 2 ["d1", "d2"]).map (Conc.workerPuts Demo.demoParse)) ∧
    (["d1", "d2"] : List String) ≠ ["d2", "d1"] := by
  refine ⟨rfl, rfl, rfl, rfl, by decide⟩

/-- C3 counterexample: a superclass marker line with no preceding class
marker raises a TypeError (the None current class is subscripted), so
per-file extraction is not failure-free. -/
theorem parse_file_raises_counterexample :
    SmaliP.parse_file none [".super Ljava/lang/Object;"] = .error "TypeError" := rfl


/-- C7: for every sequence of add operations on either graph builder, the
emitted edge lists contain no two edges with the same ordered
(source, destination) pair: the edge-identity sets dedup every emission. -/
theorem graph_no_duplicate_edge_pairs (calls : List Xref.SmaliCall) (cs : List GraphM.SmaliClassR) :
    (GraphM.runCalls calls).gEdges.Nodup ∧ (GraphM.runClasses cs).emitted.Nodup := by
  constructor
  · obtain ⟨h1, h2⟩ := GraphM.callInv_fold calls GraphM.callGraphInit ⟨rfl, List.nodup_nil⟩
    rw [h1] at h2
    exact h2.of_map GraphM.keyOf
  · obtain ⟨h1, h2⟩ := GraphM.classInv_fold cs GraphM.classGraphInit ⟨rfl, List.nodup_nil⟩
    rw [h1] at h2
    exact h2

namespace Xref

lemma cycIdx_le (k : Nat) : ∀ j, cycIdx k j ≤ k := by
  intro j
  induction j with
  | zero => exact Nat.zero_le k
  | succ j ih =>
    unfold cycIdx
    split
    · exact Nat.zero_le k
    · omega

lemma xrefLoop_once_comm (db : List SmaliCall) (dir : XDir) (res : List SmaliCall) :
    ∀ (n : Nat) (t : Option (List SmaliCall)),
      xrefLoop db dir res n (xrefOnce db dir res t) =
        xrefOnce db dir res (xrefLoop db dir res n t) := by
  intro n
  induction n with
  | zero => intro t; rfl
  | succ n ih =>
    intro t
    show xrefLoop db dir res n (xrefOnce db dir res (xrefOnce db dir res t)) = _
    rw [ih (xrefOnce db dir res t)]
    rfl

lemma xrefLoop_state (db : List SmaliCall) (dir : XDir) (seed : List SmaliCall) (k : Nat)
    (hk : pureFrontier db dir seed k = [])
    (hlt : ∀ j, j < k → pureFrontier db dir seed j ≠ []) :
    ∀ m, xrefLoop db dir seed (m + 1) none = some (pureFrontier db dir seed (cycIdx k m)) := by
  intro m
  induction m with
  | zero => rfl
  | succ m ih =>
    show xrefLoop db dir seed (m + 1) (xrefOnce db dir seed none) = _
    rw [xrefLoop_once_comm]
    show xrefOnce db dir seed (xrefLoop db dir seed (m + 1) none) = _
    rw [ih]
    by_cases h : cycIdx k m = k
    · have he : pureFrontier db dir seed (cycIdx k m) = [] := by rw [h]; exact hk
      unfold xrefOnce truthy
      rw [he]
      simp only [cycIdx, h, if_true, List.isEmpty_nil, Bool.not_true, Bool.false_eq_true,
        if_false, eq_self_iff_true]
      rfl
    · have hlt2 : cycIdx k m < k := Nat.lt_of_le_of_ne (cycIdx_le k m) h
      have hne : pureFrontier db dir seed (cycIdx k m) ≠ [] := hlt _ hlt2
      unfold xrefOnce truthy
      simp only [List.isEmpty_eq_true]
      rw [if_pos]
      · show some (xrefStep db dir (pureFrontier db dir seed (cycIdx k m))) = _
        have : cycIdx k (m + 1) = cycIdx k m + 1 := by simp [cycIdx, h]
        rw [this]
        rfl
      · simpa using hne

end Xref

/-- C2 amended: xref_call does not stop at an empty frontier.  When the
iterated expansion first empties at iteration k, every later iteration
whose cycle position is 0 restarts the expansion from the original
seed, so the loop state cycles through the frontiers with period
k + 1; after maxDepth >= 1 iterations the function returns the seed if
the cycle position of the last iteration is k (the empty frontier, as
happens in particular when k = maxDepth - 1) and otherwise the
frontier at that cycle position, which for positions below k repeats a
frontier recomputed from the seed rather than the frontier of
iteration k - 1. -/
theorem xref_call_restart_cycle (db seed : List Xref.SmaliCall) (dir : Xref.XDir)
    (k m : Nat) (hm : 1 ≤ m)
    (hk : Xref.pureFrontier db dir seed k = [])
    (hlt : ∀ j, j < k → Xref.pureFrontier db dir seed j ≠ []) :
    Xref.xref_call db seed dir m =
      if Xref.cycIdx k (m - 1) = k then seed
      else Xref.pureFrontier db dir seed (Xref.cycIdx k (m - 1)) := by
  obtain ⟨m0, rfl⟩ : ∃ m0, m = m0 + 1 := ⟨m - 1, by omega⟩
  unfold Xref.xref_call
  rw [Xref.xrefLoop_state db dir seed k hk hlt m0]
  simp only [Nat.add_sub_cancel]
  by_cases h : Xref.cycIdx k m0 = k
  · rw [if_pos h, h, hk]
    rfl
  · have hne : Xref.pureFrontier db dir seed (Xref.cycIdx k m0) ≠ [] :=
      hlt _ (Nat.lt_of_le_of_ne (Xref.cycIdx_le k m0) h)
    rw [if_neg h]
    simp [List.isEmpty_eq_true, hne]

/-- Witness for C2 amended at the concrete store of the counterexample:
k = 1, maxDepth = 2, cycle position of the last iteration is 1 = k, so
the seed is returned. -/
theorem xref_call_restart_cycle_witness :
    Xref.pureFrontier Demo.db1 Xref.XDir.to [Demo.cS] 1 = [] ∧
    Xref.xref_call Demo.db1 [Demo.cS] Xref.XDir.to 2 =
      (if Xref.cycIdx 1 (2 - 1) = 1 then [Demo.cS]
       else Xref.pureFrontier Demo.db1 Xref.XDir.to [Demo.cS] (Xref.cycIdx 1 (2 - 1))) :=
  ⟨rfl, xref_call_restart_cycle Demo.db1 [Demo.cS] Xref.XDir.to 1 2 (by decide) rfl
    (fun j hj => by
      have h0 : j = 0 := by omega
      subst h0
      decide)⟩

namespace Conc

lemma deliver_state (q : List (List β)) (s n : Nat) :
    ∃ n2, deliver s ([q.drop n], q.take n) = ([q.drop n2], q.take n2) := by
  unfold deliver
  cases s with
  | zero =>
    cases hd : q.drop n with
    | nil => exact ⟨n, by simp [hd]⟩
    | cons b rest =>
      refine ⟨n + 1, ?_⟩
      have hb : q[n]? = some b := by
        have h0 := List.getElem?_drop q n 0
        rw [hd] at h0
        simpa using h0.symm
      have htk : q.take (n + 1) = q.take n ++ [b] := by
        rw [List.take_succ, hb]
        rfl
      have hdr : q.drop (n + 1) = rest := by
        have h1 : List.drop 1 (List.drop n q) = List.drop (n + 1) q := by
          rw [List.drop_drop]
        rw [← h1, hd]
        rfl
      simp [hd, htk, hdr]
  | succ s => exact ⟨n, by simp⟩

lemma foldl_deliver_single (q : List (List β)) :
    ∀ (sched : List Nat) (n : Nat),
      ∃ n2, sched.foldl (fun st s => deliver s st) ([q.drop n], q.take n) =
        ([q.drop n2], q.take n2) := by
  intro sched
  induction sched with
  | nil => intro n; exact ⟨n, rfl⟩
  | cons s t ih =>
    intro n
    obtain ⟨n1, h1⟩ := deliver_state q s n
    obtain ⟨n2, h2⟩ := ih n1
    exact ⟨n2, by simpa [h1] using h2⟩

lemma queueAfter_single_complete (q : List (List β)) (sched : List Nat)
    (h : completeFor sched [q]) : queueAfter sched [q] = q := by
  obtain ⟨n2, h2⟩ := foldl_deliver_single q sched 0
  have hq : queueAfter sched [q] = q.take n2 := by
    unfold queueAfter
    simpa using congrArg Prod.snd h2
  unfold completeFor at h
  rw [hq] at h ⊢
  simp only [List.map, List.sum_cons, List.sum_nil, Nat.add_zero, List.length_take] at h
  exact List.take_of_length_le (by omega)

lemma foldl_deliver_nil (sched : List Nat) :
    sched.foldl (fun st s => deliver s st) (([] : List (List (List β))), ([] : List (List β))) =
      ([], []) := by
  induction sched with
  | nil => rfl
  | cons s t ih => simpa [deliver] using ih

end Conc

/-- C8 amended: the merged result is the concatenation of the first
batches to arrive on the shared queue, one per process, in arrival
order; arrival order is a property of the scheduling of the worker
puts, not of bucket creation order.  Determinism across reruns holds
whenever at most one worker process exists: any two complete schedules
then produce the same merged result. -/
theorem scan_single_worker_deterministic {α β : Type} (dirs : List α) (pd : α → List β)
    (jobs : Nat) (s1 s2 : List Nat)
    (hp : (Conc.processes jobs dirs).length ≤ 1)
    (h1 : Conc.completeFor s1 ((Conc.processes jobs dirs).map (Conc.workerPuts pd)))
    (h2 : Conc.completeFor s2 ((Conc.processes jobs dirs).map (Conc.workerPuts pd))) :
    Conc.scanResult jobs dirs pd s1 = Conc.scanResult jobs dirs pd s2 := by
  unfold Conc.scanResult Conc.get_results
  cases hps : Conc.processes jobs dirs with
  | nil =>
    have hq1 : Conc.queueAfter s1 ([] : List (List (List β))) = [] := by
      unfold Conc.queueAfter
      rw [Conc.foldl_deliver_nil]
    have hq2 : Conc.queueAfter s2 ([] : List (List (List β))) = [] := by
      unfold Conc.queueAfter
      rw [Conc.foldl_deliver_nil]
    simp [hps, hq1, hq2]
  | cons p t =>
    have ht : t = [] := by
      rw [hps] at hp
      simpa using hp
    subst ht
    rw [hps] at h1 h2
    rw [List.map_cons, List.map_nil] at h1 h2
    dsimp only
    rw [List.map_cons, List.map_nil,
      Conc.queueAfter_single_complete _ _ h1, Conc.queueAfter_single_complete _ _ h2]

/-- Witness for C8 amended: one directory, one job, two different
complete schedules deliver the same merged result. -/
theorem scan_single_worker_deterministic_witness :
    (Conc.processes 1 ["d1"]).length ≤ 1 ∧
    Conc.completeFor [0] ((Conc.processes 1 ["d1"]).map (Conc.workerPuts Demo.demoParse)) ∧
    Conc.completeFor [5, 0] ((Conc.processes 1 ["d1"]).map (Conc.workerPuts Demo.demoParse)) ∧
    Conc.scanResult 1 ["d1"] Demo.demoParse [0] = Conc.scanResult 1 ["d1"] Demo.demoParse [5, 0] :=
  ⟨by decide, rfl, rfl,
    scan_single_worker_deterministic ["d1"] Demo.demoParse 1 [0] [5, 0] (by decide) rfl rfl⟩

namespace SmaliP

lemma string_mk_data (s : String) : String.mk s.data = s := by
  cases s
  rfl

lemma beforeLast_concat (t : Char) (xs : List Char) :
    beforeLast t (xs ++ [t]) = some xs := by
  unfold beforeLast
  rw [List.reverse_append]
  simp [List.dropWhile]

lemma bestSplit_eq_none {β : Type} :
    ∀ (l : List Char) (f : List Char → List Char → Option β),
      (∀ pre suf, pre ++ suf = l → f pre suf = none) → bestSplit l f = none := by
  intro l
  induction l with
  | nil => intro f h; exact h [] [] rfl
  | cons c cs ih =>
    intro f h
    show (match bestSplit cs (fun pre suf => f (c :: pre) suf) with
          | some b => some b
          | none => f [] (c :: cs)) = none
    rw [ih (fun pre suf => f (c :: pre) suf) (fun pre suf hps => h (c :: pre) suf (by simp [hps]))]
    exact h [] (c :: cs) rfl

lemma bestSplit_eq_some {β : Type} :
    ∀ (P : List Char) (f : List Char → List Char → Option β) (S : List Char) (b : β),
      f P S = some b →
      (∀ pre suf, pre ++ suf = P ++ S → P.length < pre.length → f pre suf = none) →
      bestSplit (P ++ S) f = some b := by
  intro P
  induction P with
  | nil =>
    intro f S b hf hlong
    cases S with
    | nil => exact hf
    | cons c cs =>
      show (match bestSplit cs (fun pre suf => f (c :: pre) suf) with
            | some r => some r
            | none => f [] (c :: cs)) = some b
      rw [bestSplit_eq_none cs (fun pre suf => f (c :: pre) suf)
        (fun pre suf hps => hlong (c :: pre) suf (by simp [hps]) (Nat.succ_pos _))]
      exact hf
  | cons c P0 ih =>
    intro f S b hf hlong
    show (match bestSplit (P0 ++ S) (fun pre suf => f (c :: pre) suf) with
          | some r => some r
          | none => f [] (c :: P0 ++ S)) = some b
    rw [ih (fun pre suf => f (c :: pre) suf) S b hf
      (fun pre suf hps hlen => hlong (c :: pre) suf (by simp [hps]) (by simpa using hlen))]

end SmaliP

/-- C5 amended: on a const-string remainder carrying two double-quoted
groups (comma-free, so the register separator is the only comma), the
extracted value is not the first group: both capture groups are greedy,
so the value spans from the opening quote of the first group to the
last double quote of the line, covering both groups and the text
between them. -/
theorem extract_const_string_greedy (var a b : String)
    (ha : ',' ∉ a.data) (hb : ',' ∉ b.data) :
    SmaliP.extract_const_string (var ++ ", \"" ++ a ++ "\" \"" ++ b ++ "\"") =
      some { name := var, value := a ++ "\" \"" ++ b } := by
  have hdata : (var ++ ", \"" ++ a ++ "\" \"" ++ b ++ "\"").data =
      var.data ++ (',' :: ' ' :: '"' :: (a.data ++ ('"' :: ' ' :: '"' :: (b.data ++ ['"'])))) := by
    simp [String.data_append]
  unfold SmaliP.extract_const_string
  rw [hdata]
  have hT : ',' ∉ (' ' :: '"' :: (a.data ++ ('"' :: ' ' :: '"' :: (b.data ++ ['"'])))) := by
    intro hmem
    simp only [List.mem_cons, List.mem_append] at hmem
    rcases hmem with h | h | h | h | h | h | h | h
    · exact absurd h (by decide)
    · exact absurd h (by decide)
    · exact ha h
    · exact absurd h (by decide)
    · exact absurd h (by decide)
    · exact absurd h (by decide)
    · exact hb h
    · exact absurd h (by decide)
  apply SmaliP.bestSplit_eq_some
  · dsimp only
    have hws : List.takeWhile SmaliP.isPySpace
        (' ' :: '\x22' :: (a.data ++ '\x22' :: ' ' :: '\x22' :: (b.data ++ ['\x22']))) = [' '] := by
      simp [List.takeWhile_cons, SmaliP.isPySpace]
    split
    · next rest heq =>
      injection heq with h1 h2
      subst h2
      rw [hws]
      rw [if_neg (by decide)]
      have hdrop : List.drop ([' '] : List Char).length
          (' ' :: '\x22' :: (a.data ++ '\x22' :: ' ' :: '\x22' :: (b.data ++ ['\x22']))) =
          '\x22' :: (a.data ++ '\x22' :: ' ' :: '\x22' :: (b.data ++ ['\x22'])) := rfl
      rw [hdrop]
      split
      · next rest2 heq2 =>
        injection heq2 with h3 h4
        subst h4
        have hM : a.data ++ '\x22' :: ' ' :: '\x22' :: (b.data ++ ['\x22']) =
            (a.data ++ ('\x22' :: ' ' :: '\x22' :: b.data)) ++ ['\x22'] := by
          simp
        rw [hM, SmaliP.beforeLast_concat]
        have hval : (String.mk (a.data ++ ('\x22' :: ' ' :: '\x22' :: b.data))) = a ++ "\x22 \x22" ++ b := by
          have hd : a.data ++ ('\x22' :: ' ' :: '\x22' :: b.data) = (a ++ "\x22 \x22" ++ b).data := by
            simp [String.data_append]
          rw [hd, SmaliP.string_mk_data]
        simp only [Option.map_some']
        rw [show ({ data := var.data } : String) = var from SmaliP.string_mk_data var]
        rw [show ({ data := a.data ++ ('\x22' :: ' ' :: '\x22' :: b.data) } : String) = a ++ "\x22 \x22" ++ b from hval]
      · next x hne =>
        exact ((hne _ rfl).elim)
    · next x hne =>
      exact ((hne _ rfl).elim)
  · intro pre suf hps hlen
    cases suf with
    | nil => rfl
    | cons c rest =>
      have h2 : pre ++ c :: rest =
          (var.data ++ [',']) ++
            (' ' :: '\x22' :: (a.data ++ '\x22' :: ' ' :: '\x22' :: (b.data ++ ['\x22']))) := by
        rw [hps]
        simp
      have h1 : (pre ++ c :: rest).drop pre.length = c :: rest := List.drop_left pre (c :: rest)
      rw [h2] at h1
      have hj : pre.length = (var.data ++ [',']).length + (pre.length - var.data.length - 1) := by
        simp only [List.length_append, List.length_cons, List.length_nil]
        omega
      rw [hj, List.drop_append] at h1
      have hcmem : c ∈ ' ' :: '\x22' :: (a.data ++ '\x22' :: ' ' :: '\x22' :: (b.data ++ ['\x22'])) := by
        refine List.drop_subset (pre.length - var.data.length - 1) _ ?_
        rw [h1]
        exact List.mem_cons_self c rest
      have hcne : c ≠ ',' := fun hc => hT (hc ▸ hcmem)
      dsimp only
      split
      · next r heq =>
        injection heq with hc _
        exact absurd hc hcne
      · rfl

/-- Witness for C5 amended at the concrete remainder of the
counterexample. -/
theorem extract_const_string_greedy_witness :
    (',' ∉ "a".data) ∧ (',' ∉ "b".data) ∧
    SmaliP.extract_const_string "v0, \x22a\x22 \x22b\x22" =
      some { name := "v0", value := "a\x22 \x22b" } :=
  ⟨by decide, by decide,
    by
      have h := extract_const_string_greedy "v0" "a" "b" (by decide) (by decide)
      simpa using h⟩

namespace SmaliP

lemma stepLine_error_iff (pth : Option String) (st : ParseSt) (l : String) :
    (∃ e, stepLine pth st l = .error e) ↔
      ((needsClassCtx l = true ∧ st.currentClass = none) ∨
        (needsMethodCtx l = true ∧ st.currentMethod = none)) := by
  unfold stepLine needsClassCtx needsMethodCtx
  split_ifs with h1 h2 h3 h4 h5 h6
  · cases is_class l with
    | none => simp [truthyGroup]
    | some g => by_cases hg : g = "" <;> simp [truthyGroup, hg]
  · cases is_class_parent l with
    | none => simp [truthyGroup]
    | some g => by_cases hg : g = "" <;> cases st.currentClass <;> simp [truthyGroup, hg]
  · cases is_class_property l with
    | none => simp [truthyGroup]
    | some g => by_cases hg : g = "" <;> cases st.currentClass <;> simp [truthyGroup, hg]
  · cases is_const_string l with
    | none => simp [truthyGroup]
    | some g => by_cases hg : g = "" <;> cases st.currentClass <;> simp [truthyGroup, hg]
  · cases is_class_method l with
    | none => simp [truthyGroup]
    | some g => by_cases hg : g = "" <;> cases st.currentClass <;> simp [truthyGroup, hg]
  · cases is_method_call l with
    | none => simp [truthyGroup]
    | some g =>
      by_cases hg : g = "" <;> rcases st.currentMethod with _ | ⟨ci, mi⟩ <;>
        simp [truthyGroup, hg]
  · simp

end SmaliP

namespace SmaliP

lemma except_bind_ok {α β : Type} (a : α) (f : α → Except String β) :
    ((Except.ok a : Except String α) >>= f) = f a := rfl

lemma except_bind_error {α β : Type} (e : String) (f : α → Except String β) :
    ((Except.error e : Except String α) >>= f) = Except.error e := rfl

lemma parse_error_decomp (pth : Option String) :
    ∀ (lines : List String) (st0 : ParseSt),
      (∃ e, lines.foldlM (stepLine pth) st0 = .error e) ↔
        ∃ pre l post st, lines = pre ++ l :: post ∧
          pre.foldlM (stepLine pth) st0 = .ok st ∧ ∃ e, stepLine pth st l = .error e := by
  intro lines
  induction lines with
  | nil =>
    intro st0
    constructor
    · rintro ⟨e, he⟩
      simp only [List.foldlM, pure, Except.pure] at he
      exact absurd he (by simp)
    · rintro ⟨pre, l, post, st, habs, _⟩
      exact absurd habs (by simp)
  | cons x xs ih =>
    intro st0
    rw [List.foldlM_cons]
    cases hfx : stepLine pth st0 x with
    | error e =>
      simp only [hfx, except_bind_error]
      constructor
      · rintro ⟨e2, he2⟩
        exact ⟨[], x, xs, st0, rfl, rfl, ⟨e, hfx⟩⟩
      · rintro _
        exact ⟨e, rfl⟩
    | ok s1 =>
      simp only [hfx, except_bind_ok]
      rw [ih s1]
      constructor
      · rintro ⟨pre, l, post, st, hsplit, hok, herr⟩
        exact ⟨x :: pre, l, post, st, by rw [hsplit]; rfl,
          by rw [List.foldlM_cons, hfx, except_bind_ok]; exact hok, herr⟩
      · rintro ⟨pre, l, post, st, hsplit, hok, herr⟩
        cases pre with
        | nil =>
          simp only [List.nil_append] at hsplit
          obtain ⟨h1, h2⟩ := List.cons.inj hsplit
          subst h1
          simp only [List.foldlM, pure, Except.pure] at hok
          obtain rfl : st0 = st := by
            injection hok
          obtain ⟨e2, he2⟩ := herr
          rw [hfx] at he2
          exact absurd he2 (by simp)
        | cons y pre2 =>
          obtain ⟨h1, h2⟩ := List.cons.inj hsplit
          subst h1
          rw [List.foldlM_cons, hfx, except_bind_ok] at hok
          exact ⟨pre2, l, post, st, h2, hok, herr⟩

end SmaliP

/-- C3 amended: per-file extraction is not failure-free.  parse_file
raises a TypeError exactly when some line, reached with the results of
the preceding lines accumulated, dispatches to a class-subscripting
branch (superclass, field, const-string or method marker whose matcher
result is truthy, i.e. the captured group is present and non-empty)
while no class is open, or to the invocation branch (invoke marker with
a truthy matcher result) while no method is open; markers whose shape
match fails or captures only the empty group, like unmatched lines, are
skipped without error, and on an error the accumulated results are
discarded for that file. -/
theorem parse_file_error_characterization (pth : Option String) (lines : List String) :
    (∃ e, SmaliP.parse_file pth lines = .error e) ↔
      ∃ pre l post st, lines = pre ++ l :: post ∧
        SmaliP.parse_file pth pre = .ok st ∧
        ((SmaliP.needsClassCtx l = true ∧ st.currentClass = none) ∨
          (SmaliP.needsMethodCtx l = true ∧ st.currentMethod = none)) := by
  unfold SmaliP.parse_file
  rw [SmaliP.parse_error_decomp]
  constructor
  · rintro ⟨pre, l, post, st, hs, hok, herr⟩
    exact ⟨pre, l, post, st, hs, hok, (SmaliP.stepLine_error_iff pth st l).mp herr⟩
  · rintro ⟨pre, l, post, st, hs, hok, hcond⟩
    exact ⟨pre, l, post, st, hs, hok, (SmaliP.stepLine_error_iff pth st l).mpr hcond⟩
namespace PyJson

lemma psb_quote (fuel : Nat) (rest : List Char) :
    parseStringBody (fuel + 1) ('"' :: rest) = some ([], rest) := by
  simp only [parseStringBody]
  rw [if_pos trivial]

lemma psb_esc (fuel : Nat) (e ch : Char) (rest : List Char)
    (he : escTable e = some ch) (hne : e ≠ 'u') :
    parseStringBody (fuel + 1) ('\\' :: e :: rest) =
      (parseStringBody fuel rest).map (fun p => (ch :: p.1, p.2)) := by
  simp only [parseStringBody]
  rw [if_pos trivial, he, if_neg (by decide)]

lemma psb_u (fuel : Nat) (rest rest3 : List Char) (ch : Char)
    (hd : decodeUEscape rest = some (ch, rest3)) :
    parseStringBody (fuel + 1) ('\\' :: 'u' :: rest) =
      (parseStringBody fuel rest3).map (fun p => (ch :: p.1, p.2)) := by
  simp only [parseStringBody]
  rw [if_pos trivial, hd, if_neg (by decide)]

lemma psb_plain (fuel : Nat) (c : Char) (rest : List Char)
    (hc1 : c ≠ '"') (hc2 : c ≠ '\\') (hc3 : ¬ c.toNat < 0x20) :
    parseStringBody (fuel + 1) (c :: rest) =
      (parseStringBody fuel rest).map (fun p => (c :: p.1, p.2)) := by
  simp only [parseStringBody]
  rw [if_neg hc1, if_neg hc2, if_neg hc3]


end PyJson

namespace PyJson

lemma char_valid_nat (c : Char) :
    c.toNat < 0xd800 ∨ (0xe000 ≤ c.toNat ∧ c.toNat < 0x110000) := by
  have h := c.valid
  unfold UInt32.isValidChar Nat.isValidChar at h
  exact h

lemma char_toNat_lt (c : Char) : c.toNat < 0x110000 := by
  rcases char_valid_nat c with h | ⟨h1, h2⟩
  · omega
  · exact h2

lemma hexVal_hexDigit : ∀ n, n < 16 → hexVal (hexDigit n) = some n := by decide

lemma char_ofNatAux_toNat (c : Char) (h : (c.toNat).isValidChar) :
    Char.ofNatAux c.toNat h = c := by
  have h2 := Char.ofNat_toNat c
  unfold Char.ofNat at h2
  rwa [dif_pos h] at h2

lemma char_toNat_ofNatAux (n : Nat) (h : n.isValidChar) : (Char.ofNatAux n h).toNat = n := rfl

lemma char_eq_of_toNat_eq {a b : Char} (h : a.toNat = b.toNat) : a = b := by
  have h1 := Char.ofNat_toNat a
  rw [h, Char.ofNat_toNat] at h1
  exact h1.symm

lemma decodeHex4_hex4 (t : Nat) (ht : t < 0x10000) (rest : List Char) :
    decodeHex4 (hex4 t ++ rest) = some (t, rest) := by
  show decodeHex4
    (hexDigit (t / 4096 % 16) :: hexDigit (t / 256 % 16) :: hexDigit (t / 16 % 16) ::
      hexDigit (t % 16) :: rest) = some (t, rest)
  unfold decodeHex4
  dsimp only
  rw [hexVal_hexDigit _ (by omega), hexVal_hexDigit _ (by omega),
    hexVal_hexDigit _ (by omega), hexVal_hexDigit _ (by omega)]
  have ha : ((t / 4096 % 16 * 16 + t / 256 % 16) * 16 + t / 16 % 16) * 16 + t % 16 = t := by
    omega
  simp only
  rw [ha]

lemma decodeU_bmp (c : Char) (hc : c.toNat < 0x10000) (rest : List Char) :
    decodeUEscape (hex4 c.toNat ++ rest) = some (c, rest) := by
  rw [decodeUEscape.eq_def]
  rw [decodeHex4_hex4 c.toNat hc rest]
  dsimp only
  rw [dif_pos (char_valid_nat c)]
  rw [char_ofNatAux_toNat]

lemma decodeU_astral (c : Char) (hc : 0x10000 ≤ c.toNat) (rest : List Char) :
    decodeUEscape (hex4 (0xd800 + (c.toNat - 0x10000) / 0x400) ++
      ('\\' :: 'u' :: (hex4 (0xdc00 + (c.toNat - 0x10000) % 0x400) ++ rest))) =
      some (c, rest) := by
  have hlt := char_toNat_lt c
  have hdiv : (c.toNat - 0x10000) / 0x400 < 0x400 := by omega
  have hmod : (c.toNat - 0x10000) % 0x400 < 0x400 := by omega
  rw [decodeUEscape.eq_def]
  rw [decodeHex4_hex4 _ (by omega)]
  dsimp only
  rw [dif_neg (by omega)]
  rw [if_pos (by omega : 0xd800 ≤ 0xd800 + (c.toNat - 0x10000) / 0x400 ∧
    0xd800 + (c.toNat - 0x10000) / 0x400 < 0xdc00)]
  split
  · next rest2 heq =>
    obtain ⟨-, h2⟩ := List.cons.inj heq
    obtain ⟨-, h3⟩ := List.cons.inj h2
    subst h3
    rw [decodeHex4_hex4 _ (by omega)]
    dsimp only
    rw [if_pos (by omega : 0xdc00 ≤ 0xdc00 + (c.toNat - 0x10000) % 0x400 ∧
      0xdc00 + (c.toNat - 0x10000) % 0x400 < 0xe000)]
    split
    · next hcond =>
      refine congrArg (fun ch => some (ch, rest)) ?_
      apply char_eq_of_toNat_eq
      rw [char_toNat_ofNatAux]
      omega
    · next hcond =>
      exact absurd (by omega) hcond
  · next x hne =>
    exact absurd rfl (hne _)

end PyJson

namespace PyJson

lemma escape_cons (c : Char) (s : List Char) : escape (c :: s) = escChar c ++ escape s := by
  simp [escape]

lemma parseStringBody_escape :
    ∀ (s : List Char) (fuel : Nat) (rest : List Char), s.length < fuel →
      parseStringBody fuel (escape s ++ '"' :: rest) = some (s, rest) := by
  intro s
  induction s with
  | nil =>
    intro fuel rest hf
    obtain ⟨f, rfl⟩ : ∃ f, fuel = f + 1 := ⟨fuel - 1, by omega⟩
    show parseStringBody (f + 1) ('"' :: rest) = some ([], rest)
    exact psb_quote f rest
  | cons c s ih =>
    intro fuel rest hf
    obtain ⟨f, rfl⟩ : ∃ f, fuel = f + 1 := ⟨fuel - 1, by omega⟩
    rw [escape_cons, List.append_assoc]
    have hs : s.length < f := by
      simp only [List.length_cons] at hf
      omega
    unfold escChar
    split_ifs with h1 h2 h3 h4 h5 h6 h7 h8 h9 <;>
      simp only [List.cons_append, List.nil_append]
    · subst h1
      rw [psb_esc f '"' '"' _ (by decide) (by decide), ih f rest hs]
      rfl
    · subst h2
      rw [psb_esc f '\\' '\\' _ (by decide) (by decide), ih f rest hs]
      rfl
    · subst h3
      rw [psb_esc f 'n' '\n' _ (by decide) (by decide), ih f rest hs]
      rfl
    · subst h4
      rw [psb_esc f 'r' '\r' _ (by decide) (by decide), ih f rest hs]
      rfl
    · subst h5
      rw [psb_esc f 't' '\t' _ (by decide) (by decide), ih f rest hs]
      rfl
    · subst h6
      rw [psb_esc f 'b' '\x08' _ (by decide) (by decide), ih f rest hs]
      rfl
    · subst h7
      rw [psb_esc f 'f' '\x0c' _ (by decide) (by decide), ih f rest hs]
      rfl
    · show parseStringBody (f + 1) (c :: (escape s ++ '"' :: rest)) = some (c :: s, rest)
      rw [psb_plain f c _ h1 h2 (by omega), ih f rest hs]
      rfl
    · show parseStringBody (f + 1)
        ('\\' :: 'u' :: (hex4 c.toNat ++ (escape s ++ '"' :: rest))) = some (c :: s, rest)
      rw [psb_u f _ _ _ (decodeU_bmp c h9 (escape s ++ '"' :: rest)), ih f rest hs]
      rfl
    · show parseStringBody (f + 1)
        ('\\' :: 'u' :: (hex4 (0xd800 + (c.toNat - 0x10000) / 0x400) ++
          ('\\' :: 'u' :: (hex4 (0xdc00 + (c.toNat - 0x10000) % 0x400) ++
            (escape s ++ '"' :: rest))))) = some (c :: s, rest)
      rw [psb_u f _ _ _ (decodeU_astral c (by omega) (escape s ++ '"' :: rest)), ih f rest hs]
      rfl

end PyJson

namespace PyJson

lemma natToDigits_all_digits : ∀ n : Nat, ∀ c ∈ natToDigits n, c.isDigit = true := by
  intro n
  induction n using Nat.strong_induction_on with
  | _ n ih =>
    rw [natToDigits]
    split
    · next h =>
      intro c hc
      simp only [List.mem_singleton] at hc
      subst hc
      show (Char.ofNat (48 + n)).isDigit = true
      interval_cases n <;> decide
    · next h =>
      intro c hc
      rw [List.mem_append] at hc
      rcases hc with hc | hc
      · exact ih (n / 10) (Nat.div_lt_self (by omega) (by omega)) c hc
      · simp only [List.mem_singleton] at hc
        subst hc
        have h10 : n % 10 < 10 := Nat.mod_lt _ (by omega)
        show (Char.ofNat (48 + n % 10)).isDigit = true
        set m := n % 10 with hm
        interval_cases m <;> decide

lemma natToDigits_ne_nil (n : Nat) : natToDigits n ≠ [] := by
  rw [natToDigits]
  split
  · simp
  · simp

lemma digitsVal_append_last (ds : List Char) (d : Char) :
    digitsVal (ds ++ [d]) = digitsVal ds * 10 + (d.toNat - 48) := by
  unfold digitsVal
  rw [List.foldl_append]
  rfl

lemma digitsVal_natToDigits : ∀ n : Nat, digitsVal (natToDigits n) = n := by
  intro n
  induction n using Nat.strong_induction_on with
  | _ n ih =>
    rw [natToDigits]
    split
    · next h =>
      show digitsVal [Char.ofNat (48 + n)] = n
      unfold digitsVal
      simp only [List.foldl_cons, List.foldl_nil]
      have : (Char.ofNat (48 + n)).toNat = 48 + n := by
        interval_cases n <;> decide
      omega
    · next h =>
      rw [digitsVal_append_last, ih (n / 10) (Nat.div_lt_self (by omega) (by omega))]
      have h10 : n % 10 < 10 := Nat.mod_lt _ (by omega)
      have : (Char.ofNat (48 + n % 10)).toNat = 48 + n % 10 := by
        set m := n % 10 with hm
        interval_cases m <;> decide
      omega

lemma takeWhile_all_append (p : Char → Bool) :
    ∀ (ds rest : List Char), (∀ c ∈ ds, p c = true) →
      (∀ c, rest.head? = some c → p c = false) →
      (ds ++ rest).takeWhile p = ds ∧ (ds ++ rest).drop ds.length = rest := by
  intro ds
  induction ds with
  | nil =>
    intro rest h1 h2
    refine ⟨?_, rfl⟩
    cases rest with
    | nil => rfl
    | cons r t =>
      simp only [List.nil_append, List.takeWhile]
      rw [h2 r rfl]
  | cons d ds ih =>
    intro rest h1 h2
    obtain ⟨ihl, ihr⟩ := ih rest (fun c hc => h1 c (List.mem_cons_of_mem d hc)) h2
    constructor
    · simp only [List.cons_append, List.takeWhile]
      rw [h1 d (List.mem_cons_self d ds)]
      show d :: List.takeWhile p (ds ++ rest) = d :: ds
      rw [ihl]
    · simp only [List.cons_append, List.length_cons, List.drop_succ_cons]
      exact ihr

lemma parseNat_natToDigits (n : Nat) (rest : List Char)
    (hrest : ∀ c, rest.head? = some c → c.isDigit = false) :
    parseNat (natToDigits n ++ rest) = some (n, rest) := by
  obtain ⟨htw, hdr⟩ := takeWhile_all_append (fun c => c.isDigit) (natToDigits n) rest
    (natToDigits_all_digits n) hrest
  unfold parseNat
  rw [htw]
  rw [if_neg (by simpa using natToDigits_ne_nil n)]
  rw [digitsVal_natToDigits, hdr]

end PyJson

namespace PyJson

/-- Leading whitespace is skipped over an appended block. -/
lemma skipWs_append_all : ∀ (ws X : List Char), (∀ c ∈ ws, isJsonWs c = true) →
    skipWs (ws ++ X) = skipWs X := by
  intro ws
  induction ws with
  | nil => intro X h; rfl
  | cons w t ih =>
    intro X h
    show List.dropWhile isJsonWs (w :: (t ++ X)) = skipWs X
    rw [List.dropWhile_cons]
    rw [h w (List.mem_cons_self w t)]
    exact ih X (fun c hc => h c (List.mem_cons_of_mem w hc))

lemma skipWs_nonws (X : List Char) (h : ∀ c, X.head? = some c → isJsonWs c = false) :
    skipWs X = X := by
  cases X with
  | nil => rfl
  | cons c t =>
    show List.dropWhile isJsonWs (c :: t) = c :: t
    rw [List.dropWhile_cons, h c rfl]
    rfl

lemma nSpaces_allWs (lvl : Nat) : ∀ c ∈ nSpaces lvl, isJsonWs c = true := by
  intro c hc
  have := List.eq_of_mem_replicate hc
  subst this
  rfl

lemma escape_length : ∀ s : List Char, s.length ≤ (escape s).length := by
  intro s
  induction s with
  | nil => simp [escape]
  | cons c t ih =>
    rw [escape_cons, List.length_append, List.length_cons]
    have hc : 1 ≤ (escChar c).length := by
      unfold escChar
      split_ifs <;> simp
    omega

lemma natToDigits_head_digit (n : Nat) :
    ∀ c, (natToDigits n).head? = some c → c.isDigit = true := by
  intro c hc
  apply natToDigits_all_digits n
  cases h : natToDigits n with
  | nil => exact absurd h (natToDigits_ne_nil n)
  | cons a t =>
    rw [h] at hc
    simp only [List.head?_cons, Option.some.injEq] at hc
    subst hc
    exact List.mem_cons_self a t

lemma digit_head_facts (c : Char) (h : c.isDigit = true) :
    isJsonWs c = false ∧ (c = ']' → False) ∧ (c = '\x7d' → False) ∧ (c = '"' → False) ∧
      (c = '-' → False) ∧ (c = '[' → False) ∧ (c = '{' → False) := by
  have hge : 48 ≤ c.toNat ∧ c.toNat ≤ 57 := by
    unfold Char.isDigit at h
    simp only [Bool.and_eq_true, decide_eq_true_eq] at h
    exact ⟨h.1, h.2⟩
  refine ⟨?_, ?_, ?_, ?_, ?_, ?_, ?_⟩
  · unfold isJsonWs
    have h1 : c ≠ ' ' := fun e => by rw [e] at hge; exact absurd hge (by decide)
    have h2 : c ≠ '\n' := fun e => by rw [e] at hge; exact absurd hge (by decide)
    have h3 : c ≠ '\t' := fun e => by rw [e] at hge; exact absurd hge (by decide)
    have h4 : c ≠ '\r' := fun e => by rw [e] at hge; exact absurd hge (by decide)
    simp [h1, h2, h3, h4]
  · intro e; rw [e] at hge; exact absurd hge (by decide)
  · intro e; rw [e] at hge; exact absurd hge (by decide)
  · intro e; rw [e] at hge; exact absurd hge (by decide)
  · intro e; rw [e] at hge; exact absurd hge (by decide)
  · intro e; rw [e] at hge; exact absurd hge (by decide)
  · intro e; rw [e] at hge; exact absurd hge (by decide)

end PyJson

namespace PyJson

lemma intRepr_head (n : Int) :
    ∀ c, (intRepr n).head? = some c → (c = '-' ∨ c.isDigit = true) := by
  intro c hc
  unfold intRepr at hc
  split at hc
  · simp only [List.head?_cons, Option.some.injEq] at hc
    exact Or.inl hc.symm
  · exact Or.inr (natToDigits_head_digit _ c hc)

lemma intRepr_ne_nil (n : Int) : intRepr n ≠ [] := by
  unfold intRepr
  split
  · simp
  · exact natToDigits_ne_nil _

lemma head_facts_of_nonreserved (c : Char)
    (h : c = '-' ∨ c.isDigit = true ∨ c = '"' ∨ c = 'n' ∨ c = 't' ∨ c = 'f' ∨ c = '[' ∨ c = '{') :
    isJsonWs c = false ∧ (c = ']' → False) ∧ (c = '\x7d' → False) := by
  rcases h with rfl | h | rfl | rfl | rfl | rfl | rfl | rfl
  · exact ⟨by decide, by decide, by decide⟩
  · obtain ⟨h1, h2, h3, -⟩ := digit_head_facts c h
    exact ⟨h1, h2, h3⟩
  · exact ⟨by decide, by decide, by decide⟩
  · exact ⟨by decide, by decide, by decide⟩
  · exact ⟨by decide, by decide, by decide⟩
  · exact ⟨by decide, by decide, by decide⟩
  · exact ⟨by decide, by decide, by decide⟩
  · exact ⟨by decide, by decide, by decide⟩

lemma dumpsVal_head (lvl : Nat) (j : Json) :
    ∀ c, (dumpsVal lvl j).head? = some c →
      (c = '-' ∨ c.isDigit = true ∨ c = '"' ∨ c = 'n' ∨ c = 't' ∨ c = 'f' ∨ c = '[' ∨ c = '{') := by
  intro c hc
  cases j with
  | null => simp only [dumpsVal, List.head?_cons, Option.some.injEq] at hc; subst hc; tauto
  | bool b =>
    cases b <;>
      simp only [dumpsVal, List.head?_cons, Option.some.injEq] at hc <;> subst hc <;> tauto
  | num n =>
    simp only [dumpsVal] at hc
    rcases intRepr_head n c hc with h | h
    · exact Or.inl h
    · exact Or.inr (Or.inl h)
  | str s => simp only [dumpsVal, List.head?_cons, Option.some.injEq] at hc; subst hc; tauto
  | arr xs =>
    cases xs <;>
      simp only [dumpsVal, List.head?_cons, Option.some.injEq] at hc <;> subst hc <;> tauto
  | obj fs =>
    cases fs <;>
      simp only [dumpsVal, List.head?_cons, Option.some.injEq] at hc <;> subst hc <;> tauto

lemma dumpsVal_ne_nil (lvl : Nat) (j : Json) : dumpsVal lvl j ≠ [] := by
  cases j with
  | null => simp [dumpsVal]
  | bool b => cases b <;> simp [dumpsVal]
  | num n => simpa [dumpsVal] using intRepr_ne_nil n
  | str s => simp [dumpsVal]
  | arr xs => cases xs <;> simp [dumpsVal]
  | obj fs => cases fs <;> simp [dumpsVal]

lemma dumpsItems_head (lvl : Nat) (x : Json) (xs : List Json) :
    (dumpsItems lvl (x :: xs)).head? = (dumpsVal lvl x).head? := by
  cases xs with
  | nil => rfl
  | cons y ys =>
    show (dumpsVal lvl x ++ _).head? = (dumpsVal lvl x).head?
    cases h : dumpsVal lvl x with
    | nil => exact absurd h (dumpsVal_ne_nil lvl x)
    | cons a t => rfl

end PyJson

namespace PyJson

lemma szVal_pos (j : Json) : 1 ≤ szVal j := by
  cases j <;> simp [szVal]

lemma dumpsItems_ne_nil (lvl : Nat) (x : Json) (xs : List Json) :
    dumpsItems lvl (x :: xs) ≠ [] := by
  intro h
  have hh := dumpsItems_head lvl x xs
  rw [h] at hh
  cases hdv : dumpsVal lvl x with
  | nil => exact dumpsVal_ne_nil lvl x hdv
  | cons a t =>
    rw [hdv] at hh
    simp at hh

lemma head_skip_block (lvl : Nat) (j : Json) (ws rest : List Char)
    (hws : ∀ c ∈ ws, isJsonWs c = true) :
    skipWs (ws ++ (dumpsVal lvl j ++ rest)) = dumpsVal lvl j ++ rest := by
  rw [skipWs_append_all ws _ hws]
  apply skipWs_nonws
  intro c hc
  have hh : (dumpsVal lvl j).head? = some c := by
    cases hdv : dumpsVal lvl j with
    | nil => exact absurd hdv (dumpsVal_ne_nil lvl j)
    | cons a t =>
      rw [hdv] at hc
      simpa using hc
  exact (head_facts_of_nonreserved c (dumpsVal_head lvl j c hh)).1

lemma dumpsFields_head (lvl : Nat) (f : String × Json) (fs : List (String × Json)) :
    (dumpsFields lvl (f :: fs)).head? = some '"' := by
  obtain ⟨k, v⟩ := f
  cases fs with
  | nil => rfl
  | cons g gs => rfl

lemma dumpsFields_ne_nil (lvl : Nat) (f : String × Json) (fs : List (String × Json)) :
    dumpsFields lvl (f :: fs) ≠ [] := by
  intro h
  have hh := dumpsFields_head lvl f fs
  rw [h] at hh
  simp at hh

lemma parseItems_last (fuel : Nat) (l r rtail : List Char) (x : Json)
    (hv : parseVal fuel l = some (x, r)) (hs : skipWs r = ']' :: rtail) :
    parseItems (fuel + 1) l = some ([x], rtail) := by
  simp only [parseItems, hv, hs]

lemma parseItems_more (fuel : Nat) (l r r2 : List Char) (x : Json)
    (hv : parseVal fuel l = some (x, r)) (hs : skipWs r = ',' :: r2) :
    parseItems (fuel + 1) l = (parseItems fuel r2).map (fun p => (x :: p.1, p.2)) := by
  simp only [parseItems, hv, hs]

lemma parseFields_last (fuel : Nat) (l r1 r2 r3 r4 r5 : List Char) (k : List Char) (v : Json)
    (h1 : skipWs l = '"' :: r1)
    (h2 : parseStringBody (r1.length + 1) r1 = some (k, r2))
    (h3 : skipWs r2 = ':' :: r3)
    (h4 : parseVal fuel r3 = some (v, r4))
    (h5 : skipWs r4 = '\x7d' :: r5) :
    parseFields (fuel + 1) l = some ([(String.mk k, v)], r5) := by
  simp only [parseFields, h1, h2, h3, h4, h5]

lemma parseFields_more (fuel : Nat) (l r1 r2 r3 r4 r5 : List Char) (k : List Char) (v : Json)
    (h1 : skipWs l = '"' :: r1)
    (h2 : parseStringBody (r1.length + 1) r1 = some (k, r2))
    (h3 : skipWs r2 = ':' :: r3)
    (h4 : parseVal fuel r3 = some (v, r4))
    (h5 : skipWs r4 = ',' :: r5) :
    parseFields (fuel + 1) l = (parseFields fuel r5).map (fun p => ((String.mk k, v) :: p.1, p.2)) := by
  simp only [parseFields, h1, h2, h3, h4, h5]

lemma parse_dumps : ∀ fuel : Nat,
    (∀ (j : Json) (lvl : Nat) (ws rest : List Char),
      (∀ c ∈ ws, isJsonWs c = true) → szVal j ≤ fuel →
      (∀ c, rest.head? = some c → c.isDigit = false) →
      parseVal fuel (ws ++ (dumpsVal lvl j ++ rest)) = some (j, rest)) ∧
    (∀ (x : Json) (xs : List Json) (lvl lvlc : Nat) (ws rest : List Char),
      (∀ c ∈ ws, isJsonWs c = true) → szItems (x :: xs) ≤ fuel →
      parseItems fuel
          (ws ++ (dumpsItems lvl (x :: xs) ++ ('\n' :: (nSpaces lvlc ++ (']' :: rest))))) =
        some (x :: xs, rest)) ∧
    (∀ (f : String × Json) (fs : List (String × Json)) (lvl lvlc : Nat) (ws rest : List Char),
      (∀ c ∈ ws, isJsonWs c = true) → szFields (f :: fs) ≤ fuel →
      parseFields fuel
          (ws ++ (dumpsFields lvl (f :: fs) ++ ('\n' :: (nSpaces lvlc ++ ('\x7d' :: rest))))) =
        some (f :: fs, rest)) := by
  intro fuel
  induction fuel with
  | zero =>
    refine ⟨?_, ?_, ?_⟩
    · intro j lvl ws rest hws hsz hrest
      exact absurd hsz (by have := szVal_pos j; omega)
    · intro x xs lvl lvlc ws rest hws hsz
      exact absurd hsz (by unfold szItems; omega)
    · intro f fs lvl lvlc ws rest hws hsz
      exact absurd hsz (by unfold szFields; omega)
  | succ fuel ih =>
    obtain ⟨ihV, ihI, ihF⟩ := ih
    refine ⟨?_, ?_, ?_⟩
    · -- one value
      intro j lvl ws rest hws hsz hrest
      have hskip := head_skip_block lvl j ws rest hws
      simp only [parseVal]
      rw [hskip]
      cases j with
      | null =>
        simp only [dumpsVal, List.cons_append, List.nil_append]
        rw [if_neg (by decide), if_neg (by decide), if_neg (by decide), if_neg (by decide),
          if_neg (by decide)]
      | bool b =>
        cases b <;> simp only [dumpsVal, List.cons_append, List.nil_append] <;>
          rw [if_neg (by decide), if_neg (by decide), if_neg (by decide), if_neg (by decide),
            if_neg (by decide)]
      | num n =>
        simp only [dumpsVal]
        by_cases hneg : n < 0
        · rw [show intRepr n = '-' :: natToDigits (-n).toNat from by
            unfold intRepr; rw [if_pos hneg]]
          simp only [List.cons_append]
          rw [parseNat_natToDigits _ rest hrest]
          simp only [Option.map_some']
          rw [show -(((-n).toNat : Nat) : Int) = n by omega]
          rw [if_neg (by decide), if_pos trivial]
        · rw [show intRepr n = natToDigits n.toNat from by
            unfold intRepr; rw [if_neg hneg]]
          cases hnd : natToDigits n.toNat with
          | nil => exact absurd hnd (natToDigits_ne_nil _)
          | cons d ds =>
            have hd : d.isDigit = true := by
              apply natToDigits_head_digit n.toNat
              rw [hnd]
              rfl
            obtain ⟨-, -, -, hq, hm, -, -⟩ := digit_head_facts d hd
            simp only [List.cons_append]
            rw [if_neg (fun e => hq e), if_neg (fun e => hm e), if_pos hd]
            rw [show d :: (ds ++ rest) = natToDigits n.toNat ++ rest by rw [hnd]; rfl]
            rw [parseNat_natToDigits _ rest hrest]
            simp only [Option.map_some']
            rw [show ((n.toNat : Nat) : Int) = n by omega]
      | str s =>
        simp only [dumpsVal, List.cons_append]
        rw [if_pos trivial]
        rw [List.append_assoc]
        simp only [List.singleton_append]
        rw [parseStringBody_escape s.data _ rest
          (by rw [List.length_append]; have := escape_length s.data; omega)]
        simp only [Option.map_some']
      | arr xs =>
        cases xs with
        | nil =>
          simp only [dumpsVal, List.cons_append, List.nil_append]
          rw [if_neg (by decide), if_neg (by decide), if_neg (by decide), if_pos trivial]
          rw [skipWs_nonws _ (by intro c hc; simp at hc; subst hc; decide)]
          rfl
        | cons x xs =>
          simp only [dumpsVal, List.cons_append, List.append_assoc, List.singleton_append,
            List.nil_append]
          rw [if_neg (by decide), if_neg (by decide), if_neg (by decide), if_pos trivial]
          have hws2 : ∀ c ∈ '\n' :: nSpaces (lvl + 1), isJsonWs c = true := by
            intro c hc
            rcases List.mem_cons.mp hc with rfl | hc2
            · decide
            · exact nSpaces_allWs _ c hc2
          have hhead : ∀ c, (dumpsItems (lvl + 1) (x :: xs)).head? = some c →
              (isJsonWs c = false ∧ (c = ']' → False) ∧ (c = '\x7d' → False)) := by
            intro c hc
            rw [dumpsItems_head] at hc
            exact head_facts_of_nonreserved c (dumpsVal_head _ x c hc)
          have hsw : skipWs ('\n' :: (nSpaces (lvl + 1) ++ (dumpsItems (lvl + 1) (x :: xs) ++
              ('\n' :: (nSpaces lvl ++ (']' :: rest)))))) =
              dumpsItems (lvl + 1) (x :: xs) ++ ('\n' :: (nSpaces lvl ++ (']' :: rest))) := by
            show skipWs (('\n' :: nSpaces (lvl + 1)) ++ (dumpsItems (lvl + 1) (x :: xs) ++
              ('\n' :: (nSpaces lvl ++ (']' :: rest))))) = _
            rw [skipWs_append_all _ _ hws2]
            apply skipWs_nonws
            intro c hc
            cases hdv : dumpsItems (lvl + 1) (x :: xs) with
            | nil => exact absurd hdv (dumpsItems_ne_nil _ x xs)
            | cons a t =>
              rw [hdv] at hc
              simp only [List.cons_append, List.head?_cons, Option.some.injEq] at hc
              refine (hhead c ?_).1
              rw [hdv, List.head?_cons, hc]
          rw [hsw]
          split
          · next rest2 heq =>
            have hh : (dumpsItems (lvl + 1) (x :: xs)).head? = some ']' := by
              cases hdv : dumpsItems (lvl + 1) (x :: xs) with
              | nil => exact absurd hdv (dumpsItems_ne_nil _ x xs)
              | cons a t =>
                rw [hdv] at heq
                simp only [List.cons_append] at heq
                obtain ⟨h1, -⟩ := List.cons.inj heq
                rw [h1]
                rfl
            exact absurd rfl ((hhead _ hh).2.1)
          · have hitems := ihI x xs (lvl + 1) lvl ('\n' :: nSpaces (lvl + 1)) rest hws2
              (by simp only [szVal] at hsz; omega)
            simp only [List.cons_append, List.append_assoc] at hitems
            rw [hitems]
            rfl
      | obj fs =>
        cases fs with
        | nil =>
          simp only [dumpsVal, List.cons_append, List.nil_append]
          rw [if_neg (by decide), if_neg (by decide), if_neg (by decide), if_neg (by decide),
            if_pos trivial]
          rw [skipWs_nonws _ (by intro c hc; simp at hc; subst hc; decide)]
          rfl
        | cons f fs =>
          simp only [dumpsVal, List.cons_append, List.append_assoc, List.singleton_append,
            List.nil_append]
          rw [if_neg (by decide), if_neg (by decide), if_neg (by decide), if_neg (by decide),
            if_pos trivial]
          have hws2 : ∀ c ∈ '\n' :: nSpaces (lvl + 1), isJsonWs c = true := by
            intro c hc
            rcases List.mem_cons.mp hc with rfl | hc2
            · decide
            · exact nSpaces_allWs _ c hc2
          have hsw : skipWs ('\n' :: (nSpaces (lvl + 1) ++ (dumpsFields (lvl + 1) (f :: fs) ++
              ('\n' :: (nSpaces lvl ++ ('\x7d' :: rest)))))) =
              dumpsFields (lvl + 1) (f :: fs) ++ ('\n' :: (nSpaces lvl ++ ('\x7d' :: rest))) := by
            show skipWs (('\n' :: nSpaces (lvl + 1)) ++ (dumpsFields (lvl + 1) (f :: fs) ++
              ('\n' :: (nSpaces lvl ++ ('\x7d' :: rest))))) = _
            rw [skipWs_append_all _ _ hws2]
            apply skipWs_nonws
            intro c hc
            cases hdv : dumpsFields (lvl + 1) (f :: fs) with
            | nil => exact absurd hdv (dumpsFields_ne_nil _ f fs)
            | cons a t =>
              have hh := dumpsFields_head (lvl + 1) f fs
              rw [hdv] at hc hh
              simp only [List.cons_append, List.head?_cons, Option.some.injEq] at hc hh
              rw [← hc, hh]
              decide
          rw [hsw]
          split
          · next rest2 heq =>
            have hh : (dumpsFields (lvl + 1) (f :: fs)).head? = some '\x7d' := by
              cases hdv : dumpsFields (lvl + 1) (f :: fs) with
              | nil => exact absurd hdv (dumpsFields_ne_nil _ f fs)
              | cons a t =>
                rw [hdv] at heq
                simp only [List.cons_append] at heq
                obtain ⟨h1, -⟩ := List.cons.inj heq
                rw [h1]
                rfl
            rw [dumpsFields_head] at hh
            exact absurd hh (by decide)
          · have hfields := ihF f fs (lvl + 1) lvl ('\n' :: nSpaces (lvl + 1)) rest hws2
              (by simp only [szVal] at hsz; omega)
            simp only [List.cons_append, List.append_assoc] at hfields
            rw [hfields]
            rfl
    · -- the element list of a nonempty array
      intro x xs lvl lvlc ws rest hws hsz
      cases xs with
      | nil =>
        have hv := ihV x lvl ws ('\n' :: (nSpaces lvlc ++ (']' :: rest))) hws
          (by simp only [szItems] at hsz; omega)
          (by intro c hc; simp only [List.head?_cons, Option.some.injEq] at hc; subst hc; decide)
        have hs : skipWs ('\n' :: (nSpaces lvlc ++ (']' :: rest))) = ']' :: rest := by
          show skipWs (('\n' :: nSpaces lvlc) ++ (']' :: rest)) = _
          rw [skipWs_append_all _ _ (by
            intro c hc
            rcases List.mem_cons.mp hc with rfl | hc2
            · decide
            · exact nSpaces_allWs _ c hc2)]
          exact skipWs_nonws _ (by
            intro c hc
            simp only [List.head?_cons, Option.some.injEq] at hc
            subst hc
            decide)
        simp only [dumpsItems]
        exact parseItems_last fuel _ _ rest x hv hs
      | cons y ys =>
        simp only [dumpsItems, List.cons_append, List.append_assoc]
        have hv := ihV x lvl ws
          (',' :: '\n' :: (nSpaces lvl ++ (dumpsItems lvl (y :: ys) ++
            ('\n' :: (nSpaces lvlc ++ (']' :: rest)))))) hws
          (by simp only [szItems] at hsz; omega)
          (by intro c hc; simp only [List.head?_cons, Option.some.injEq] at hc; subst hc; decide)
        have hs : skipWs (',' :: '\n' :: (nSpaces lvl ++ (dumpsItems lvl (y :: ys) ++
            ('\n' :: (nSpaces lvlc ++ (']' :: rest)))))) =
            ',' :: ('\n' :: (nSpaces lvl ++ (dumpsItems lvl (y :: ys) ++
            ('\n' :: (nSpaces lvlc ++ (']' :: rest)))))) :=
          skipWs_nonws _ (by
            intro c hc
            simp only [List.head?_cons, Option.some.injEq] at hc
            subst hc
            decide)
        rw [parseItems_more fuel _ _ _ x hv hs]
        have hrec := ihI y ys lvl lvlc ('\n' :: nSpaces lvl) rest (by
            intro c hc
            rcases List.mem_cons.mp hc with rfl | hc2
            · decide
            · exact nSpaces_allWs _ c hc2)
          (by simp only [szItems] at hsz ⊢; omega)
        simp only [List.cons_append] at hrec
        rw [hrec]
        rfl
    · -- the field list of a nonempty object
      intro f fs lvl lvlc ws rest hws hsz
      obtain ⟨k, v⟩ := f
      cases fs with
      | nil =>
        simp only [dumpsFields, List.cons_append, List.append_assoc]
        have h1 : skipWs (ws ++ ('"' :: (escape k.data ++ ('"' :: ':' :: ' ' ::
            (dumpsVal lvl v ++ ('\n' :: (nSpaces lvlc ++ ('\x7d' :: rest)))))))) =
            '"' :: (escape k.data ++ ('"' :: ':' :: ' ' ::
            (dumpsVal lvl v ++ ('\n' :: (nSpaces lvlc ++ ('\x7d' :: rest)))))) := by
          rw [skipWs_append_all _ _ hws]
          exact skipWs_nonws _ (by
            intro c hc
            simp only [List.head?_cons, Option.some.injEq] at hc
            subst hc
            decide)
        have h2 : parseStringBody ((escape k.data ++ ('"' :: ':' :: ' ' ::
            (dumpsVal lvl v ++ ('\n' :: (nSpaces lvlc ++ ('\x7d' :: rest)))))).length + 1)
            (escape k.data ++ ('"' :: ':' :: ' ' ::
            (dumpsVal lvl v ++ ('\n' :: (nSpaces lvlc ++ ('\x7d' :: rest)))))) =
            some (k.data, ':' :: ' ' ::
            (dumpsVal lvl v ++ ('\n' :: (nSpaces lvlc ++ ('\x7d' :: rest))))) := by
          apply parseStringBody_escape
          rw [List.length_append]
          have := escape_length k.data
          omega
        have h3 : skipWs (':' :: ' ' ::
            (dumpsVal lvl v ++ ('\n' :: (nSpaces lvlc ++ ('\x7d' :: rest))))) =
            ':' :: (' ' ::
            (dumpsVal lvl v ++ ('\n' :: (nSpaces lvlc ++ ('\x7d' :: rest))))) :=
          skipWs_nonws _ (by
            intro c hc
            simp only [List.head?_cons, Option.some.injEq] at hc
            subst hc
            decide)
        have h4 := ihV v lvl [' '] ('\n' :: (nSpaces lvlc ++ ('\x7d' :: rest)))
          (by intro c hc; simp at hc; subst hc; decide)
          (by simp only [szFields, szVal] at hsz; omega)
          (by intro c hc; simp only [List.head?_cons, Option.some.injEq] at hc; subst hc; decide)
        simp only [List.singleton_append] at h4
        have h5 : skipWs ('\n' :: (nSpaces lvlc ++ ('\x7d' :: rest))) = '\x7d' :: rest := by
          show skipWs (('\n' :: nSpaces lvlc) ++ ('\x7d' :: rest)) = _
          rw [skipWs_append_all _ _ (by
            intro c hc
            rcases List.mem_cons.mp hc with rfl | hc2
            · decide
            · exact nSpaces_allWs _ c hc2)]
          exact skipWs_nonws _ (by
            intro c hc
            simp only [List.head?_cons, Option.some.injEq] at hc
            subst hc
            decide)
        rw [parseFields_last fuel _ _ _ _ _ rest k.data v h1 h2 h3 h4 h5,
          SmaliP.string_mk_data]
      | cons g gs =>
        simp only [dumpsFields, List.cons_append, List.append_assoc]
        have h1 : skipWs (ws ++ ('"' :: (escape k.data ++ ('"' :: ':' :: ' ' :: (dumpsVal lvl v ++ (',' :: '\n' :: (nSpaces lvl ++ (dumpsFields lvl (g :: gs) ++ ('\n' :: (nSpaces lvlc ++ ('\x7d' :: rest))))))))))) = '"' :: (escape k.data ++ ('"' :: ':' :: ' ' :: (dumpsVal lvl v ++ (',' :: '\n' :: (nSpaces lvl ++ (dumpsFields lvl (g :: gs) ++ ('\n' :: (nSpaces lvlc ++ ('\x7d' :: rest))))))))) := by
          rw [skipWs_append_all _ _ hws]
          exact skipWs_nonws _ (by
            intro c hc
            simp only [List.head?_cons, Option.some.injEq] at hc
            subst hc
            decide)
        have h2 : parseStringBody ((escape k.data ++ ('"' :: ':' :: ' ' :: (dumpsVal lvl v ++ (',' :: '\n' :: (nSpaces lvl ++ (dumpsFields lvl (g :: gs) ++ ('\n' :: (nSpaces lvlc ++ ('\x7d' :: rest))))))))).length + 1) (escape k.data ++ ('"' :: ':' :: ' ' :: (dumpsVal lvl v ++ (',' :: '\n' :: (nSpaces lvl ++ (dumpsFields lvl (g :: gs) ++ ('\n' :: (nSpaces lvlc ++ ('\x7d' :: rest))))))))) =
            some (k.data, ':' :: ' ' :: (dumpsVal lvl v ++ (',' :: '\n' :: (nSpaces lvl ++ (dumpsFields lvl (g :: gs) ++ ('\n' :: (nSpaces lvlc ++ ('\x7d' :: rest)))))))) := by
          apply parseStringBody_escape
          rw [List.length_append]
          have := escape_length k.data
          omega
        have h3 : skipWs (':' :: ' ' :: (dumpsVal lvl v ++ (',' :: '\n' :: (nSpaces lvl ++ (dumpsFields lvl (g :: gs) ++ ('\n' :: (nSpaces lvlc ++ ('\x7d' :: rest)))))))) =
            ':' :: (' ' :: (dumpsVal lvl v ++ (',' :: '\n' :: (nSpaces lvl ++ (dumpsFields lvl (g :: gs) ++ ('\n' :: (nSpaces lvlc ++ ('\x7d' :: rest)))))))) :=
          skipWs_nonws _ (by
            intro c hc
            simp only [List.head?_cons, Option.some.injEq] at hc
            subst hc
            decide)
        have h4 := ihV v lvl [' '] (',' :: '\n' :: (nSpaces lvl ++ (dumpsFields lvl (g :: gs) ++ ('\n' :: (nSpaces lvlc ++ ('\x7d' :: rest))))))
          (by intro c hc; simp at hc; subst hc; decide)
          (by simp only [szFields] at hsz; omega)
          (by intro c hc; simp only [List.head?_cons, Option.some.injEq] at hc; subst hc; decide)
        simp only [List.singleton_append] at h4
        have h5 : skipWs (',' :: '\n' :: (nSpaces lvl ++ (dumpsFields lvl (g :: gs) ++ ('\n' :: (nSpaces lvlc ++ ('\x7d' :: rest)))))) = ',' :: ('\n' :: (nSpaces lvl ++ (dumpsFields lvl (g :: gs) ++ ('\n' :: (nSpaces lvlc ++ ('\x7d' :: rest)))))) :=
          skipWs_nonws _ (by
            intro c hc
            simp only [List.head?_cons, Option.some.injEq] at hc
            subst hc
            decide)
        rw [parseFields_more fuel _ _ _ _ _ _ k.data v h1 h2 h3 h4 h5]
        have hrec := ihF g gs lvl lvlc ('\n' :: nSpaces lvl) rest (by
            intro c hc
            rcases List.mem_cons.mp hc with rfl | hc2
            · decide
            · exact nSpaces_allWs _ c hc2)
          (by simp only [szFields] at hsz ⊢; omega)
        simp only [List.cons_append] at hrec
        rw [hrec, SmaliP.string_mk_data]
        rfl

lemma szVal_le_length : ∀ n : Nat,
    (∀ (j : Json) (lvl : Nat), szVal j ≤ n → szVal j ≤ (dumpsVal lvl j).length) ∧
    (∀ (x : Json) (xs : List Json) (lvl : Nat), szItems (x :: xs) ≤ n →
      szItems (x :: xs) ≤ (dumpsItems lvl (x :: xs)).length + 2) ∧
    (∀ (f : String × Json) (fs : List (String × Json)) (lvl : Nat), szFields (f :: fs) ≤ n →
      szFields (f :: fs) ≤ (dumpsFields lvl (f :: fs)).length + 2) := by
  intro n
  induction n with
  | zero =>
    refine ⟨?_, ?_, ?_⟩
    · intro j lvl hsz
      exact absurd hsz (by have := szVal_pos j; omega)
    · intro x xs lvl hsz
      exact absurd hsz (by unfold szItems; omega)
    · intro f fs lvl hsz
      exact absurd hsz (by unfold szFields; omega)
  | succ n ih =>
    obtain ⟨ihV, ihI, ihF⟩ := ih
    refine ⟨?_, ?_, ?_⟩
    · intro j lvl hsz
      cases j with
      | null => simp [szVal, dumpsVal]
      | bool b => cases b <;> simp [szVal, dumpsVal]
      | num m =>
        have hnn := intRepr_ne_nil m
        have hlen : 1 ≤ (intRepr m).length := by
          cases h : intRepr m with
          | nil => exact absurd h hnn
          | cons a t => simp
        simp only [szVal, dumpsVal]
        omega
      | str s => simp [szVal, dumpsVal]
      | arr xs =>
        cases xs with
        | nil => simp [szVal, szItems, dumpsVal]
        | cons x xs =>
          have h1 := ihI x xs (lvl + 1) (by simp only [szVal] at hsz; omega)
          simp [szVal, dumpsVal]
          omega
      | obj fs =>
        cases fs with
        | nil => simp [szVal, szFields, dumpsVal]
        | cons f fs =>
          have h1 := ihF f fs (lvl + 1) (by simp only [szVal] at hsz; omega)
          simp [szVal, dumpsVal]
          omega
    · intro x xs lvl hsz
      cases xs with
      | nil =>
        have h1 := ihV x lvl (by simp only [szItems] at hsz; omega)
        simp [szItems, dumpsItems]
        omega
      | cons y ys =>
        have h1 := ihV x lvl (by simp only [szItems] at hsz; omega)
        have h2 := ihI y ys lvl (by simp only [szItems] at hsz ⊢; omega)
        simp only [szItems] at h2 ⊢
        simp [dumpsItems]
        omega
    · intro f fs lvl hsz
      obtain ⟨k, v⟩ := f
      cases fs with
      | nil =>
        have h1 := ihV v lvl (by simp only [szFields] at hsz; omega)
        simp [szFields, dumpsFields]
        omega
      | cons g gs =>
        have h1 := ihV v lvl (by simp only [szFields] at hsz; omega)
        have h2 := ihF g gs lvl (by simp only [szFields] at hsz ⊢; omega)
        simp only [szFields] at h2 ⊢
        simp [dumpsFields]
        omega

lemma loads_dumps (j : Json) : loads (String.mk (dumpsVal 0 j)) = some j := by
  have hb := (szVal_le_length (szVal j)).1 j 0 (le_refl _)
  have hv := (parse_dumps ((dumpsVal 0 j).length + 1)).1 j 0 [] []
    (by intro c hc; cases hc)
    (by omega)
    (by intro c hc; simp at hc)
  simp only [List.nil_append, List.append_nil] at hv
  show (match parseVal ((dumpsVal 0 j).length + 1) (dumpsVal 0 j) with
    | some (v, rest) => if skipWs rest = [] then some v else none
    | none => none) = some j
  rw [hv]
  rfl

end PyJson

/-- C10: App.write_json followed by App.read_json on a fresh App round-trips the
classes mapping: the file holds json.dump of the to_json string (double encoding),
json.load recovers that string, the inner json.loads recovers the dumped dict, and
the fresh App's classes attribute receives exactly the original classes object. -/
theorem write_read_json_roundtrip (a : PyJson.App) :
    PyJson.read_json_classes (PyJson.write_json a) =
      Except.ok (some (PyJson.Json.obj a.classes)) := by
  simp only [PyJson.read_json_classes, PyJson.write_json]
  rw [PyJson.loads_dumps]
  show (match PyJson.loads (PyJson.to_json a) with
    | none => Except.error "ValueError"
    | some (PyJson.Json.obj fields) => Except.ok (PyJson.lookupField "classes" fields)
    | some _ => Except.ok none) = Except.ok (some (PyJson.Json.obj a.classes))
  simp only [PyJson.to_json]
  rw [PyJson.loads_dumps]
  rfl
